import Mathlib

/-!
# CovertChannel: a verification development of `main.c`

The program hides a text in the source and destination ports of UDP datagrams.
This file embeds the codec (`encode`, `decode`), the checksum (`udp_checksum`),
the client's send loop and the server's receive iteration as Lean functions, and
proves properties of them.

Platform of the embedding: Linux on x86-64. A `char`, as a bit pattern, is a
natural number below 256; 16-bit words are read from memory low byte first;
`htons` and `ntohs` swap the two bytes of a 16-bit word; `long` has 64 bits (the
sums of `udp_checksum` stay far below that, so they are plain naturals);
`sizeof(udp_header)` is 8 in the client (a pointer) and in the server (a
`struct udphdr`). The address `addr` at which the array `alphabet` is loaded is a
parameter of `encode` and of all that calls it, since `GETINDEX` subtracts it from
the null pointer when a character is missing. `packet_size` is a natural number (a negative `-p` leaves
`malloc` too little room for the header and is not modelled). Loops that may not
end take a number of rounds (`fuel`) and return `none` when it runs out; `sendto`
is a parameter that tells whether a send succeeds, `sleep` is left out.
-/

set_option autoImplicit false

namespace CovertChannel

/-! ## The alphabet and the codec -/

/-- The array `const char alphabet[32] = "abcdefghijklmnopqrstuvwxyz ?$&."`:
the 31 characters of the literal and, as entry 31, the terminating NUL. -/
def alphabet : List Nat :=
  [97, 98, 99, 100, 101, 102, 103, 104, 105, 106, 107, 108, 109,
   110, 111, 112, 113, 114, 115, 116, 117, 118, 119, 120, 121, 122,
   32, 63, 36, 38, 46, 0]

/-- The characters of the string literal that initialises `alphabet`. -/
def alphabetChars : List Nat :=
  "abcdefghijklmnopqrstuvwxyz ?$&.".toList.map Char.toNat

/-- The C library's `strchr(s, c)`, as the offset of the match: the first
position holding `c`, looked for up to and including the terminating NUL
(so `c = 0` finds the terminator); `none` is the null pointer. -/
def strchr : List Nat → Nat → Option Nat
  | [], _ => none
  | x :: xs, c =>
    if x = c then some 0
    else if x = 0 then none
    else (strchr xs c).map (· + 1)

/-- The conversion of a 64-bit pointer difference to `int`: its low 32 bits read
as a signed number. -/
def toInt32 (x : Int) : Int :=
  let u := x % 4294967296
  if u < 2147483648 then u else u - 4294967296

/-- The value of `(int)(strchr(alphabet, c) - alphabet)` when `strchr` returns the
null pointer and the array `alphabet` lies at address `addr`: the difference
`0 - addr` converted to `int`. Nothing makes it negative: it is negative for some
addresses and not for others. -/
def nullDiff (addr : Nat) : Int := toInt32 (0 - (addr : Int))

/-- The C macro `GETINDEX(c)`, `(int)(strchr(alphabet, c) - alphabet)`, for the
array at address `addr`: the offset of the match, and `nullDiff addr` when
`strchr` returns the null pointer. -/
def GETINDEX (addr : Nat) (c : Nat) : Int :=
  match strchr alphabet c with
  | some i => (i : Int)
  | none => nullDiff addr

/-- The step `bit++; if (bit > 7) { byte++; bit = 0; }` shared by both loops. -/
def nextBit (byte bit : Nat) : Nat × Nat :=
  if bit + 1 > 7 then (byte + 1, 0) else (byte, bit + 1)

/-- One round of the inner loop of `encode` (`j` from 0 to 4): bit `4 - j` of
`tmp` is or-ed into `out_buffer[byte]` at position `7 - bit`. -/
def encodeBit (tmp : Nat) (st : List Nat × Nat × Nat) (j : Nat) : List Nat × Nat × Nat :=
  let out_buffer := st.1
  let byte := st.2.1
  let bit := st.2.2
  let tmp2 := (tmp >>> (4 - j)) &&& 1
  let out_buffer := out_buffer.set byte ((out_buffer.getD byte 0 ||| (tmp2 <<< (7 - bit))) % 256)
  (out_buffer, nextBit byte bit)

/-- The value `tmp` whose five low bits `encode` packs for a character:
`GETINDEX(c)`, replaced by `GETINDEX(' ')` when negative, and so not negative. -/
def encodeIndex (addr : Nat) (c : Nat) : Nat :=
  let tmp := GETINDEX addr c
  let tmp := if tmp < 0 then GETINDEX addr 32 else tmp
  tmp.toNat

/-- One round of the outer loop of `encode` (`i` from 0 to 2). -/
def encodeChar (addr : Nat) (buffer : List Nat) (st : List Nat × Nat × Nat) (i : Nat) :
    List Nat × Nat × Nat :=
  (List.range 5).foldl (encodeBit (encodeIndex addr (buffer.getD i 0))) st

/-- The C function `encode(buffer, out_buffer)`, the array `alphabet` lying at
address `addr`: the two bytes left in `out_buffer`, which starts as `{0x80, 0}`
with `byte = 0` and `bit = 1`. -/
def encode (addr : Nat) (buffer : List Nat) : List Nat :=
  ((List.range 3).foldl (encodeChar addr buffer) ([0x80, 0], 0, 1)).1

/-- One round of the inner loop of `decode`: the bit at position `7 - bit` of
`buffer[byte]` is shifted into `tmp_index`. (For a negative `char` the shift acts
on the sign-extended value, whose bits 0 to 7 are those of the byte.) -/
def decodeBit (buffer : List Nat) (st : Nat × Nat × Nat) (_j : Nat) : Nat × Nat × Nat :=
  let tmp_index := st.1
  let byte := st.2.1
  let bit := st.2.2
  let tmp_char := buffer.getD byte 0
  let tmp_bit := (tmp_char >>> (7 - bit)) &&& 1
  let tmp_index := (tmp_index <<< 1) ||| tmp_bit
  (tmp_index, nextBit byte bit)

/-- One round of the outer loop of `decode`: five bits are gathered into
`tmp_index` and `alphabet[tmp_index]` is appended to the output; a lookup
outside the 32 entries of the array makes the result `none`. -/
def decodeChar (buffer : List Nat) (st : Option (List Nat) × Nat × Nat) (_i : Nat) :
    Option (List Nat) × Nat × Nat :=
  let r := (List.range 5).foldl (decodeBit buffer) (0, st.2.1, st.2.2)
  (st.1.bind (fun out => (alphabet.get? r.1).map (fun ch => out ++ [ch])), r.2)

/-- The C function `decode(buffer, out_buffer)`: the three characters written
to `out_buffer`, `none` if a lookup in `alphabet` were out of range. -/
def decode (buffer : List Nat) : Option (List Nat) :=
  ((List.range 3).foldl (decodeChar buffer) (some [], 0, 1)).1

/-- Reference definition, from the specification's words: the two bytes of a
port field read as one 16-bit value, `out_buffer[0]` being the high byte. -/
def be16 (b : List Nat) : Nat := b.getD 0 0 * 256 + b.getD 1 0

/-- Reference definition, from the specification's words: the index of a
character is its position in the alphabet array, and the position of the space
when it is not found there. -/
def alphabetIndex (c : Nat) : Nat :=
  if c ∈ alphabet then alphabet.indexOf c else alphabet.indexOf 32

/-! ## Memory and byte order -/

/-- The 16-bit word held in memory at `buf[i]`, `buf[i + 1]` (low byte first). -/
def load16 (buf : List Nat) (i : Nat) : Nat := buf.getD i 0 + 256 * buf.getD (i + 1) 0

/-- A 16-bit word `v` written to memory at `buf[i]`, `buf[i + 1]`. -/
def store16 (buf : List Nat) (i v : Nat) : List Nat :=
  (buf.set i (v % 256)).set (i + 1) (v / 256 % 256)

/-- The 32-bit word held in memory at `buf[i] .. buf[i + 3]`. -/
def load32 (buf : List Nat) (i : Nat) : Nat :=
  buf.getD i 0 + 256 * buf.getD (i + 1) 0 + 65536 * buf.getD (i + 2) 0
    + 16777216 * buf.getD (i + 3) 0

/-- The four bytes a 32-bit word `v` occupies in memory. -/
def bytes32 (v : Nat) : List Nat :=
  [v % 256, v / 256 % 256, v / 65536 % 256, v / 16777216 % 256]

/-- The library's `htons`: the argument is taken as a `uint16_t` and its two bytes
are swapped. -/
def htons (x : Nat) : Nat := x % 256 * 256 + x / 256 % 256

/-- The library's `ntohs`, the same swap. -/
def ntohs (x : Nat) : Nat := x % 256 * 256 + x / 256 % 256

/-- The `n` bytes of memory from `buf + off` on (a `memcpy` source); bytes past the
end of the list read as 0. -/
def mem (buf : List Nat) (off n : Nat) : List Nat :=
  (List.range n).map (fun k => buf.getD (off + k) 0)

/-- The bytes `src` written to memory from `buf + off` on (a write that stays
within `buf`, as all writes of `fread` and `encode` in `client` do). -/
def blit (buf : List Nat) (off : Nat) (src : List Nat) : List Nat :=
  buf.take off ++ src ++ buf.drop (off + src.length)

/-! ## The checksum -/

/-- The loop `while (bytes > 1) { sum += *buf++; bytes -= 2; }` of `udp_checksum`:
the pointer `buf` is the rest of the buffer, and the result is the sum, the
pointer and the count when the loop ends. -/
def sumWords : List Nat → Nat → Nat → Nat × List Nat × Nat
  | buf, bytes + 2, sum => sumWords (buf.drop 2) bytes (sum + load16 buf 0)
  | buf, bytes, sum => (sum, buf, bytes)

/-- The value of `sum` in `udp_checksum` before the carries are folded: the words
and, when one byte is left, `oddbyte`, whose first byte in memory is that byte
and whose other byte is 0. A negative `bytes` runs neither part. -/
def udp_sum (buf : List Nat) (bytes : Int) : Nat :=
  let r := sumWords buf bytes.toNat 0
  if r.2.2 = 1 then r.1 + r.2.1.getD 0 0 else r.1

/-- The first folding statement `sum = (sum >> 16) + (sum & 0xffff);` of
`udp_checksum`. -/
def fold1 (sum : Nat) : Nat := (sum >>> 16) + (sum &&& 0xffff)

/-- The two folding statements `sum = (sum >> 16) + (sum & 0xffff);
sum = sum + (sum >> 16);` of `udp_checksum`. -/
def fold16 (sum : Nat) : Nat :=
  let sum := fold1 sum
  sum + (sum >>> 16)

/-- The C function `udp_checksum(buf, bytes)`: `(short)~sum` returned as an
`unsigned short`, the complement of the low 16 bits of the folded sum. -/
def udp_checksum (buf : List Nat) (bytes : Int) : Nat :=
  65535 - fold16 (udp_sum buf bytes) % 65536

/-- Reference definition, from the specification's words: the 16-bit words of a
byte string, an odd final byte padded with a zero byte. -/
def words16 : List Nat → List Nat
  | a :: b :: rest => (a + 256 * b) :: words16 rest
  | [a] => [a + 256 * 0]
  | [] => []

/-- Reference definition, from the specification's words: one's-complement
addition of two 16-bit words, the carry out of bit 15 added back in at bit 0. -/
def onesAdd (a b : Nat) : Nat := (a + b) % 65536 + (a + b) / 65536

/-- Reference definition, from the specification's words: the standard Internet
checksum of a byte string (RFC 1071), the 16-bit complement of the
one's-complement sum of its 16-bit words. -/
def internetChecksum (data : List Nat) : Nat :=
  65535 - (words16 data).foldl onesAdd 0

/-- An auxiliary of the proofs: the 16-bit representative that end-around-carry
addition keeps of a sum `s` of words, 0 for `s = 0` and otherwise the number from
1 to 65535 congruent to `s` modulo 65535. -/
def onesNorm (s : Nat) : Nat := if s = 0 then 0 else (s - 1) % 65535 + 1

/-- An input of `udp_checksum`: a buffer of 131077 bytes, 131076 bytes `0xff` and a
last byte 1. -/
def longBuffer : List Nat := List.replicate (2 * 65538) 255 ++ [1]

/-! ## The client -/

/-- A stdio stream opened for reading: the bytes of the file and the read
position. -/
structure FILE where
  data : List Nat
  pos : Nat

/-- The library's `fread(ptr, 1, n, f)` on a file: the bytes read, at most `n`
and fewer only at the end of the file, and the stream after the read. -/
def fread (f : FILE) (n : Nat) : List Nat × FILE :=
  let got := (f.data.drop f.pos).take n
  (got, { f with pos := f.pos + got.length })

/-- The library's `rewind(f)`. -/
def rewind (f : FILE) : FILE := { f with pos := 0 }

/-- The loop that reads the covert data in `client`, given `fuel` rounds: the
stream, `covert_buffer`, `bytes_to_read` and `covert_running` when it ends. -/
def readCovert : Nat → FILE → List Nat → Nat → Bool → Option (FILE × List Nat × Nat × Bool)
  | 0, _, _, _, _ => none
  | fuel + 1, covert_file, covert_buffer, bytes_to_read, covert_running =>
    if bytes_to_read > 0 then
      let r := fread covert_file bytes_to_read
      let covert_buffer := blit covert_buffer (6 - bytes_to_read) r.1
      if r.1.length = 0 then some (r.2, covert_buffer, bytes_to_read, false)
      else readCovert fuel r.2 covert_buffer (bytes_to_read - r.1.length) covert_running
    else some (covert_file, covert_buffer, bytes_to_read, covert_running)

/-- The loop that fills the rest of `covert_buffer` with spaces in `client`. -/
def padSpaces (covert_buffer : List Nat) : Nat → List Nat
  | 0 => covert_buffer
  | bytes_to_read + 1 =>
    padSpaces (covert_buffer.set (6 - (bytes_to_read + 1)) 32) bytes_to_read

/-- The loop that reads the dummy data in `client`, given `fuel` rounds: the
stream and `buffer` when it ends. -/
def fillDummy (packet_size : Nat) : Nat → FILE → List Nat → Nat → Option (FILE × List Nat)
  | 0, _, _, _ => none
  | fuel + 1, dummy_file, buffer, bytes_to_read =>
    if bytes_to_read > 0 then
      let r := fread dummy_file bytes_to_read
      let buffer := blit buffer (8 + (packet_size - bytes_to_read)) r.1
      let dummy_file := if r.1.length = 0 then rewind r.2 else r.2
      fillDummy packet_size fuel dummy_file buffer (bytes_to_read - r.1.length)
    else some (dummy_file, buffer)

/-- The 12 bytes of `udp_pseudo_header` as `client` fills it in. -/
def pseudoHeader (source_addr dest_addr packet_size : Nat) : List Nat :=
  bytes32 source_addr ++ bytes32 dest_addr ++ [0, 17]
    ++ store16 [0, 0] 0 (htons (8 + packet_size))

/-- The part of `client` that puts the UDP header into `buffer`: the two encoded
ports, the length and the checksum. -/
def assemble (addr : Nat) (covert_buffer buffer : List Nat)
    (source_addr dest_addr packet_size : Nat) : List Nat :=
  let buffer := blit buffer 0 (encode addr covert_buffer)
  let buffer := blit buffer 2 (encode addr (covert_buffer.drop 3))
  let buffer := store16 buffer 0 (htons (load16 buffer 0))
  let buffer := store16 buffer 2 (htons (load16 buffer 2))
  let buffer := store16 buffer 4 (htons (8 + packet_size))
  let buffer := store16 buffer 6 0
  store16 buffer 6 (udp_checksum (pseudoHeader source_addr dest_addr packet_size) 12)

/-- The variables of `client` that its send loop changes, and the datagrams
handed to `sendto` so far. -/
structure ClientState where
  covert_file : FILE
  dummy_file : FILE
  covert_buffer : List Nat
  buffer : List Nat
  covert_running : Bool
  sent : List (List Nat)

/-- The loop `while (covert_running)` of `client`, given `rounds` rounds of it
and `fuel` rounds for each inner loop; `sendto d` tells whether sending `d`
succeeds, and a failed send ends the function. -/
def clientLoop (addr : Nat) (sendto : List Nat → Bool)
    (source_addr dest_addr packet_size fuel : Nat) : Nat → ClientState → Option ClientState
  | 0, _ => none
  | rounds + 1, st =>
    if st.covert_running then
      match readCovert fuel st.covert_file st.covert_buffer 6 st.covert_running with
      | none => none
      | some (covert_file, covert_buffer, bytes_to_read, covert_running) =>
        let covert_buffer := padSpaces covert_buffer bytes_to_read
        match fillDummy packet_size fuel st.dummy_file st.buffer packet_size with
        | none => none
        | some (dummy_file, buffer) =>
          let buffer := assemble addr covert_buffer buffer source_addr dest_addr packet_size
          let st := { covert_file := covert_file, dummy_file := dummy_file,
                      covert_buffer := covert_buffer, buffer := buffer,
                      covert_running := covert_running, sent := st.sent }
          if sendto buffer then
            clientLoop addr sendto source_addr dest_addr packet_size fuel rounds
              { st with sent := st.sent ++ [buffer] }
          else some st
    else some st

/-- The C function `client` from its send loop on: both files are at their
start, `covert_buffer` and the `8 + packet_size` bytes of `buffer` are zero. The
result is the list of datagrams sent, `none` when the fuel runs out. -/
def client (addr : Nat) (sendto : List Nat → Bool) (covert dummy : List Nat)
    (source_addr dest_addr packet_size fuel : Nat) : Option (List (List Nat)) :=
  (clientLoop addr sendto source_addr dest_addr packet_size fuel fuel
    { covert_file := { data := covert, pos := 0 }, dummy_file := { data := dummy, pos := 0 },
      covert_buffer := List.replicate 7 0, buffer := List.replicate (8 + packet_size) 0,
      covert_running := true, sent := [] }).map (fun st => st.sent)

/-- Reference definition, from the specification's words: the `n` bytes of a
source read cyclically from position `pos` on, byte `i` being the byte of the
source at `(pos + i) mod` its length. -/
def cyclicBytes (data : List Nat) (pos n : Nat) : List Nat :=
  (List.range n).map (fun i => data.getD ((pos + i) % data.length) 0)

/-! ## The server -/

/-- The two output files of `server`, as the bytes written to each. -/
structure ServerState where
  covert_out : List Nat
  dummy_out : List Nat

/-- The part of a round of `server` that copies the UDP header found at
`buffer + off`, converts the two ports with `ntohs` and decodes them into the
six characters of `covert_text`. -/
def serverCovertText (buffer : List Nat) (off : Nat) : Option (List Nat) :=
  let udp_header := mem buffer off 8
  let udp_header := store16 udp_header 0 (ntohs (load16 udp_header 0))
  let udp_header := store16 udp_header 2 (ntohs (load16 udp_header 2))
  (decode udp_header).bind (fun a => (decode (udp_header.drop 2)).map (fun b => a ++ b))

/-- The count `bytes_to_write = ntohs(udp_header.len) - sizeof(udp_header)` of the
dummy data in a round of `server`. -/
def serverPayloadLength (buffer : List Nat) (off : Nat) : Int :=
  (ntohs (load16 (mem buffer off 8) 4) : Int) - 8

/-- One round of the loop `while (1)` of `server` on the receive buffer as
`recvfrom` left it; `fwrite` writes all it is given. -/
def serverIter (listening_addr : Nat) (st : ServerState) (buffer : List Nat) :
    Option ServerState :=
  let ip_header := mem buffer 0 20
  if load32 ip_header 12 ≠ listening_addr % 4294967296 then some st
  else
    let ihl := ip_header.getD 0 0 % 16
    match serverCovertText buffer (ihl * 4) with
    | none => none
    | some covert_text =>
      let bytes_to_write := serverPayloadLength buffer (ihl * 4)
      some { covert_out := st.covert_out ++ covert_text,
             dummy_out := st.dummy_out ++ mem buffer (ihl * 4 + 8) bytes_to_write.toNat }

end CovertChannel

namespace CovertChannel

/-! ## Lemmas on the codec -/

theorem range_three : List.range 3 = [0, 1, 2] := by decide

theorem range_five : List.range 5 = [0, 1, 2, 3, 4] := by decide

theorem strchr_terminated (pre : List Nat) (c : Nat) (h : 0 ∉ pre) :
    strchr (pre ++ [0]) c
      = if c ∈ pre ++ [0] then some ((pre ++ [0]).indexOf c) else none := by
  induction pre with
  | nil =>
    by_cases hc : 0 = c
    · subst hc; simp [strchr]
    · have hc2 : ¬ c = 0 := fun e => hc e.symm
      simp [strchr, hc, hc2]
  | cons x xs ih =>
    have hx : ¬ x = 0 := fun e => h (by simp [e])
    have hxs : 0 ∉ xs := fun e => h (by simp [e])
    by_cases hc : x = c
    · subst hc; simp [strchr]
    · have hc2 : ¬ c = x := fun e => hc e.symm
      have e : strchr (x :: (xs ++ [0])) c = (strchr (xs ++ [0]) c).map (· + 1) := by
        simp [strchr, hc, hx]
      rw [List.cons_append, e, ih hxs]
      by_cases hm : c ∈ xs ++ [0]
      · simp [hm, List.indexOf_cons_ne _ hc]
      · simp [hm, hc2]

theorem alphabet_split : alphabet = alphabet.dropLast ++ [0] := by decide

theorem strchr_alphabet (c : Nat) :
    strchr alphabet c = if c ∈ alphabet then some (alphabet.indexOf c) else none := by
  have h := strchr_terminated alphabet.dropLast c (by decide)
  rw [← alphabet_split] at h
  exact h

theorem alphabetIndex_lt (c : Nat) : alphabetIndex c < 32 := by
  unfold alphabetIndex
  by_cases hc : c ∈ alphabet
  · simp only [hc, if_true]
    have := List.indexOf_lt_length.mpr hc
    simpa [alphabet] using this
  · simp only [hc, if_false]
    decide

theorem GETINDEX_found (addr c : Nat) (hc : c ∈ alphabet) :
    GETINDEX addr c = (alphabet.indexOf c : Int) := by
  unfold GETINDEX
  rw [strchr_alphabet c]
  simp [hc]

theorem GETINDEX_missing (addr c : Nat) (hc : c ∉ alphabet) : GETINDEX addr c = nullDiff addr := by
  unfold GETINDEX
  rw [strchr_alphabet c]
  simp [hc]

/-- A character that `strchr` finds is packed as its position in the array,
whatever the address of the array. -/
theorem encodeIndex_found (addr c : Nat) (hc : c ∈ alphabet) :
    encodeIndex addr c = alphabetIndex c := by
  unfold encodeIndex alphabetIndex
  rw [GETINDEX_found addr c hc]
  have hn : ¬ ((List.indexOf c alphabet : Int) < 0) := by omega
  simp [hc, hn]

theorem encodeIndex_space (addr : Nat) : encodeIndex addr 32 = 26 := by
  rw [encodeIndex_found addr 32 (by decide)]
  decide

/-- A character that `strchr` does not find is packed as the space only when
the difference of the null pointer and the array comes out negative; otherwise
that difference itself is packed. -/
theorem encodeIndex_missing (addr c : Nat) (hc : c ∉ alphabet) :
    encodeIndex addr c = if nullDiff addr < 0 then 26 else (nullDiff addr).toNat := by
  have hs : (GETINDEX addr 32).toNat = 26 := by
    rw [GETINDEX_found addr 32 (by decide)]
    decide
  unfold encodeIndex
  rw [GETINDEX_missing addr c hc]
  by_cases hn : nullDiff addr < 0
  · simp only [hn, if_true, hs]
  · simp only [hn, if_false]

theorem encodeIndex_eq (addr c : Nat) (h : c ∈ alphabet ∨ nullDiff addr < 0) :
    encodeIndex addr c = alphabetIndex c := by
  by_cases hc : c ∈ alphabet
  · exact encodeIndex_found addr c hc
  · have hn : nullDiff addr < 0 := by
      rcases h with h | h
      · exact absurd h hc
      · exact h
    rw [encodeIndex_missing addr c hc, if_pos hn]
    unfold alphabetIndex
    simp only [hc, if_false]
    decide

theorem encodeBit_mod (t : Nat) (st : List Nat × Nat × Nat) (j : Nat) (hj : j < 5) :
    encodeBit t st j = encodeBit (t % 32) st j := by
  have e : (t >>> (4 - j)) &&& 1 = ((t % 32) >>> (4 - j)) &&& 1 := by
    simp only [Nat.shiftRight_eq_div_pow, Nat.and_one_is_mod]
    interval_cases j <;> norm_num <;> omega
  unfold encodeBit
  rw [e]

/-- Only the five low bits of `tmp` reach the output of `encode`. -/
theorem foldl_encodeBit_mod (t : Nat) (st : List Nat × Nat × Nat) :
    (List.range 5).foldl (encodeBit t) st = (List.range 5).foldl (encodeBit (t % 32)) st := by
  simp only [range_five, List.foldl_cons, List.foldl_nil]
  rw [encodeBit_mod t st 0 (by decide), encodeBit_mod t _ 1 (by decide),
    encodeBit_mod t _ 2 (by decide), encodeBit_mod t _ 3 (by decide),
    encodeBit_mod t _ 4 (by decide)]

theorem encodeBit_cons (t x : Nat) (l : List Nat) (byte bit j : Nat) :
    encodeBit t (x :: l, byte + 1, bit) j
      = (x :: (encodeBit t (l, byte, bit) j).1, (encodeBit t (l, byte, bit) j).2.1 + 1,
          (encodeBit t (l, byte, bit) j).2.2) := by
  simp only [encodeBit, nextBit, List.set_cons_succ, List.getD_cons_succ]
  split <;> rfl

theorem foldl_encodeBit_cons (t x : Nat) (js : List Nat) (l : List Nat) (byte bit : Nat) :
    js.foldl (encodeBit t) (x :: l, byte + 1, bit)
      = (x :: (js.foldl (encodeBit t) (l, byte, bit)).1,
          (js.foldl (encodeBit t) (l, byte, bit)).2.1 + 1,
          (js.foldl (encodeBit t) (l, byte, bit)).2.2) := by
  induction js generalizing l byte bit with
  | nil => rfl
  | cons j js ih =>
    simp only [List.foldl_cons]
    rw [encodeBit_cons, ih]

theorem encode_first : ∀ t < 32, (List.range 5).foldl (encodeBit t) ([128, 0], 0, 1)
    = ([128 + 4 * t, 0], 0, 6) := by
  decide

set_option maxRecDepth 100000 in
theorem encode_second : ∀ a < 32, ∀ t < 32,
    (List.range 5).foldl (encodeBit t) ([128 + 4 * a, 0], 0, 6)
      = ([128 + 4 * a + t / 8, (t % 8) * 32], 1, 3) := by
  decide!

set_option maxRecDepth 100000 in
theorem encode_third_tail : ∀ k < 8, ∀ t < 32,
    (List.range 5).foldl (encodeBit t) ([k * 32], 0, 3) = ([k * 32 + t], 1, 0) := by
  decide!

theorem encode_third (x k t : Nat) (hk : k < 8) (ht : t < 32) :
    (List.range 5).foldl (encodeBit t) ([x, k * 32], 1, 3) = ([x, k * 32 + t], 2, 0) := by
  rw [foldl_encodeBit_cons, encode_third_tail k hk t ht]

/-- The two bytes `encode` leaves, in terms of the five low bits of the three
packed values. -/
theorem encode_bytes (addr : Nat) (buffer : List Nat) :
    encode addr buffer
      = [128 + 4 * (encodeIndex addr (buffer.getD 0 0) % 32)
            + encodeIndex addr (buffer.getD 1 0) % 32 / 8,
         encodeIndex addr (buffer.getD 1 0) % 32 % 8 * 32
            + encodeIndex addr (buffer.getD 2 0) % 32] := by
  have h0 : encodeIndex addr (buffer.getD 0 0) % 32 < 32 := Nat.mod_lt _ (by decide)
  have h1 : encodeIndex addr (buffer.getD 1 0) % 32 < 32 := Nat.mod_lt _ (by decide)
  have h2 : encodeIndex addr (buffer.getD 2 0) % 32 < 32 := Nat.mod_lt _ (by decide)
  simp only [encode, range_three, List.foldl_cons, List.foldl_nil, encodeChar]
  rw [foldl_encodeBit_mod (encodeIndex addr (buffer.getD 0 0)), encode_first _ h0,
    foldl_encodeBit_mod (encodeIndex addr (buffer.getD 1 0)), encode_second _ h0 _ h1,
    foldl_encodeBit_mod (encodeIndex addr (buffer.getD 2 0)),
    encode_third _ _ _ (Nat.mod_lt _ (by decide)) h2]

theorem shl_or_mod (i x : Nat) : (i <<< 1) ||| (x % 2) = 2 * i + x % 2 := by
  have h := Nat.mul_add_lt_is_or (i := 1) (b := x % 2) (by omega) i
  rw [Nat.shiftLeft_eq, ← Nat.mul_comm]
  simpa using h.symm

theorem decode_first (buffer : List Nat) :
    (List.range 5).foldl (decodeBit buffer) (0, 0, 1) = ((buffer.getD 0 0 / 4) % 32, 0, 6) := by
  simp only [range_five, List.foldl_cons, List.foldl_nil, decodeBit, nextBit,
    Nat.shiftRight_eq_div_pow, Nat.and_one_is_mod, shl_or_mod]
  simp
  omega

theorem decode_second (buffer : List Nat) :
    (List.range 5).foldl (decodeBit buffer) (0, 0, 6)
      = ((buffer.getD 0 0 % 4) * 8 + (buffer.getD 1 0 / 32) % 8, 1, 3) := by
  simp only [range_five, List.foldl_cons, List.foldl_nil, decodeBit, nextBit,
    Nat.shiftRight_eq_div_pow, Nat.and_one_is_mod, shl_or_mod]
  simp
  omega

theorem decode_third (buffer : List Nat) :
    (List.range 5).foldl (decodeBit buffer) (0, 1, 3) = (buffer.getD 1 0 % 32, 2, 0) := by
  simp only [range_five, List.foldl_cons, List.foldl_nil, decodeBit, nextBit,
    Nat.shiftRight_eq_div_pow, Nat.and_one_is_mod, shl_or_mod]
  simp
  omega

theorem alphabet_get? (i : Nat) (h : i < 32) : alphabet.get? i = some (alphabet.getD i 0) := by
  have hl : i < alphabet.length := by simpa [alphabet] using h
  rw [List.getD_eq_getElem _ _ hl, List.get?_eq_get hl]
  rfl

/-- The three characters `decode` writes, in terms of the two input bytes. -/
theorem decode_bytes (buffer : List Nat) :
    decode buffer
      = some [alphabet.getD ((buffer.getD 0 0 / 4) % 32) 0,
              alphabet.getD ((buffer.getD 0 0 % 4) * 8 + (buffer.getD 1 0 / 32) % 8) 0,
              alphabet.getD (buffer.getD 1 0 % 32) 0] := by
  simp only [decode, range_three, List.foldl_cons, List.foldl_nil, decodeChar, decode_first,
    decode_second, decode_third]
  rw [alphabet_get? _ (Nat.mod_lt _ (by decide)), alphabet_get? _ (by omega),
    alphabet_get? _ (Nat.mod_lt _ (by decide))]
  rfl

theorem alphabet_getD_index : ∀ c ∈ alphabet, alphabet.getD (alphabetIndex c) 0 = c := by
  decide

theorem alphabetChars_subset : ∀ c ∈ alphabetChars, c ∈ alphabet := by decide

/-- Decoding the two bytes of `encode` gives the entries of the array at the
five low bits of the three packed values. -/
theorem decode_encode_index (addr : Nat) (buffer : List Nat) :
    decode (encode addr buffer)
      = some [alphabet.getD (encodeIndex addr (buffer.getD 0 0) % 32) 0,
              alphabet.getD (encodeIndex addr (buffer.getD 1 0) % 32) 0,
              alphabet.getD (encodeIndex addr (buffer.getD 2 0) % 32) 0] := by
  have h0 : encodeIndex addr (buffer.getD 0 0) % 32 < 32 := Nat.mod_lt _ (by decide)
  have h1 : encodeIndex addr (buffer.getD 1 0) % 32 < 32 := Nat.mod_lt _ (by decide)
  have h2 : encodeIndex addr (buffer.getD 2 0) % 32 < 32 := Nat.mod_lt _ (by decide)
  rw [decode_bytes, encode_bytes]
  simp only [List.getD_cons_zero, List.getD_cons_succ]
  generalize encodeIndex addr (buffer.getD 0 0) % 32 = m0 at h0 ⊢
  generalize encodeIndex addr (buffer.getD 1 0) % 32 = m1 at h1 ⊢
  generalize encodeIndex addr (buffer.getD 2 0) % 32 = m2 at h2 ⊢
  have e0 : (128 + 4 * m0 + m1 / 8) / 4 % 32 = m0 := by omega
  have e1 : (128 + 4 * m0 + m1 / 8) % 4 * 8 + (m1 % 8 * 32 + m2) / 32 % 8 = m1 := by omega
  have e2 : (m1 % 8 * 32 + m2) % 32 = m2 := by omega
  rw [e0, e1, e2]

/-- Decoding the two bytes of `encode` gives back three characters that are
entries of the array, whatever the address of the array. -/
theorem decode_encode (addr : Nat) (buffer : List Nat) (h0 : buffer.getD 0 0 ∈ alphabet)
    (h1 : buffer.getD 1 0 ∈ alphabet) (h2 : buffer.getD 2 0 ∈ alphabet) :
    decode (encode addr buffer) = some [buffer.getD 0 0, buffer.getD 1 0, buffer.getD 2 0] := by
  rw [decode_encode_index, encodeIndex_found addr _ h0, encodeIndex_found addr _ h1,
    encodeIndex_found addr _ h2, Nat.mod_eq_of_lt (alphabetIndex_lt _),
    Nat.mod_eq_of_lt (alphabetIndex_lt _), Nat.mod_eq_of_lt (alphabetIndex_lt _),
    alphabet_getD_index _ h0, alphabet_getD_index _ h1, alphabet_getD_index _ h2]

theorem encode_congr (addr : Nat) (a b : List Nat)
    (h0 : encodeIndex addr (a.getD 0 0) = encodeIndex addr (b.getD 0 0))
    (h1 : encodeIndex addr (a.getD 1 0) = encodeIndex addr (b.getD 1 0))
    (h2 : encodeIndex addr (a.getD 2 0) = encodeIndex addr (b.getD 2 0)) :
    encode addr a = encode addr b := by
  rw [encode_bytes, encode_bytes, h0, h1, h2]

/-! ## The codec claims -/

/-- C1: for every three characters `c0`, `c1`, `c2` of the alphabet
"abcdefghijklmnopqrstuvwxyz ?$&.", `decode` applied to the two bytes that
`encode` produces for them gives back exactly `c0`, `c1`, `c2`, at whatever
address the array lies. -/
theorem decode_encode_roundtrip (addr : Nat) (c0 c1 c2 : Nat) (h0 : c0 ∈ alphabetChars)
    (h1 : c1 ∈ alphabetChars) (h2 : c2 ∈ alphabetChars) :
    decode (encode addr [c0, c1, c2]) = some [c0, c1, c2] :=
  decode_encode addr [c0, c1, c2] (alphabetChars_subset c0 h0) (alphabetChars_subset c1 h1)
    (alphabetChars_subset c2 h2)

/-- C1 at the group "hel": the three characters are in the alphabet and come
back from `decode` after `encode`. -/
theorem decode_encode_roundtrip_witness :
    104 ∈ alphabetChars ∧ 101 ∈ alphabetChars ∧ 108 ∈ alphabetChars
      ∧ decode (encode 0x5593e552f3e0 [104, 101, 108]) = some [104, 101, 108] :=
  ⟨by decide, by decide, by decide,
    decode_encode_roundtrip 0x5593e552f3e0 104 101 108 (by decide) (by decide) (by decide)⟩

/-- C4 fails in the code on the group "ABC" when the array lies at address
`0x5593e552f3e0`: none of the characters is found, the difference of the null
pointer and the array converts to the `int` 447548448, which is not negative, so
the test `tmp < 0` does not put the space in and the five low bits of that
number, 0, are packed three times: the field is `0x8000`, where the layout with
the index of the space for a character not found gives 60250. In the same way
"hAy" is encoded as {156, 24} and "h y" as {159, 88}. -/
theorem encode_missing_packs_address_bits :
    nullDiff 0x5593e552f3e0 = 447548448
      ∧ 65 ∉ alphabet ∧ 66 ∉ alphabet ∧ 67 ∉ alphabet
      ∧ encodeIndex 0x5593e552f3e0 65 = 447548448
      ∧ encode 0x5593e552f3e0 [65, 66, 67] = [128, 0]
      ∧ be16 (encode 0x5593e552f3e0 [65, 66, 67]) = 0x8000
      ∧ 0x8000 + 1024 * alphabetIndex 65 + 32 * alphabetIndex 66 + alphabetIndex 67 = 60250
      ∧ encode 0x5593e552f3e0 [104, 65, 121] = [156, 24]
      ∧ encode 0x5593e552f3e0 [104, 32, 121] = [159, 88] := by
  decide

/-- The bit layout of `encode` where the code reaches it: when each of the three
characters is an entry of the array, or the difference of the null pointer and
the array is negative, the two bytes read as a 16-bit value with `out_buffer[0]`
as the high byte equal `0x8000 + 1024 * i0 + 32 * i1 + i2`, where `ik` is the
index of the k-th character in the array (that of the space when the character
is not found there) and is below 32. -/
theorem encode_bit_layout (addr : Nat) (c0 c1 c2 : Nat)
    (h : nullDiff addr < 0 ∨ (c0 ∈ alphabet ∧ c1 ∈ alphabet ∧ c2 ∈ alphabet)) :
    (encode addr [c0, c1, c2]).length = 2
      ∧ be16 (encode addr [c0, c1, c2])
          = 0x8000 + 1024 * alphabetIndex c0 + 32 * alphabetIndex c1 + alphabetIndex c2
      ∧ alphabetIndex c0 < 32 ∧ alphabetIndex c1 < 32 ∧ alphabetIndex c2 < 32 := by
  have h0 := alphabetIndex_lt c0
  have h1 := alphabetIndex_lt c1
  have h2 := alphabetIndex_lt c2
  have e0 : encodeIndex addr c0 = alphabetIndex c0 :=
    encodeIndex_eq addr c0 (h.elim Or.inr (fun m => Or.inl m.1))
  have e1 : encodeIndex addr c1 = alphabetIndex c1 :=
    encodeIndex_eq addr c1 (h.elim Or.inr (fun m => Or.inl m.2.1))
  have e2 : encodeIndex addr c2 = alphabetIndex c2 :=
    encodeIndex_eq addr c2 (h.elim Or.inr (fun m => Or.inl m.2.2))
  refine ⟨by rw [encode_bytes]; rfl, ?_, h0, h1, h2⟩
  rw [encode_bytes]
  simp only [be16, List.getD_cons_zero, List.getD_cons_succ, e0, e1, e2,
    Nat.mod_eq_of_lt h0, Nat.mod_eq_of_lt h1, Nat.mod_eq_of_lt h2]
  omega

/-- The marker bit: bit 15 of the field `encode` leaves is set for every three
characters and every address of the array. -/
theorem encode_marker_bit (addr : Nat) (c0 c1 c2 : Nat) :
    (be16 (encode addr [c0, c1, c2])).testBit 15 = true := by
  have h0 : encodeIndex addr c0 % 32 < 32 := Nat.mod_lt _ (by decide)
  have h1 : encodeIndex addr c1 % 32 < 32 := Nat.mod_lt _ (by decide)
  have h2 : encodeIndex addr c2 % 32 < 32 := Nat.mod_lt _ (by decide)
  rw [encode_bytes, Nat.testBit_to_div_mod]
  simp only [be16, List.getD_cons_zero, List.getD_cons_succ, decide_eq_true_eq]
  generalize encodeIndex addr c0 % 32 = m0 at h0 ⊢
  generalize encodeIndex addr c1 % 32 = m1 at h1 ⊢
  generalize encodeIndex addr c2 % 32 = m2 at h2 ⊢
  omega

/-- C5 fails for the NUL character, at whatever address the array lies: it is
not one of the characters of the alphabet, yet `strchr` finds it at the
terminator of the array, so it is packed as index 31 and not as the space,
index 26. -/
theorem encode_nul_not_space :
    0 ∉ alphabetChars
      ∧ (∀ addr : Nat, encode addr [0, 97, 97] = [252, 0] ∧ encode addr [32, 97, 97] = [232, 0])
      ∧ encode 0x4006e0 [0, 97, 97] ≠ encode 0x4006e0 [32, 97, 97] := by
  refine ⟨by decide, ?_, by decide⟩
  intro addr
  have e0 : encodeIndex addr 0 = 31 := by
    rw [encodeIndex_found addr 0 (by decide)]; decide
  have ea : encodeIndex addr 97 = 0 := by
    rw [encodeIndex_found addr 97 (by decide)]; decide
  have es := encodeIndex_space addr
  constructor
  · rw [encode_bytes]
    simp only [List.getD_cons_zero, List.getD_cons_succ, e0, ea]
  · rw [encode_bytes]
    simp only [List.getD_cons_zero, List.getD_cons_succ, es, ea]

/-- C5, amended: for every character `c` that is not an entry of the alphabet
array (neither one of its 31 characters nor the NUL that terminates it) and
every position `k` in 0..2, on a run where the index the code looks up for a
missing character, `(int)(NULL - alphabet)`, is negative, `encode` of a group of
three characters with `c` at position `k` produces the same two bytes as
`encode` of the same group with the space at position `k`. -/
theorem encode_substitutes_space (addr : Nat) (hneg : nullDiff addr < 0) (c : Nat)
    (hc : c ∉ alphabet) (k : Nat) (hk : k < 3) (c0 c1 c2 : Nat) :
    encode addr ([c0, c1, c2].set k c) = encode addr ([c0, c1, c2].set k 32) := by
  have e : encodeIndex addr c = encodeIndex addr 32 := by
    rw [encodeIndex_missing addr c hc, if_pos hneg, encodeIndex_space]
  interval_cases k
  · exact encode_congr addr _ _ e rfl rfl
  · exact encode_congr addr _ _ rfl e rfl
  · exact encode_congr addr _ _ rfl rfl e

/-- C5, amended, at the character 'A' in the middle of the group "hAy", the
array lying at address `0x4006e0`. -/
theorem encode_substitutes_space_witness :
    nullDiff 0x4006e0 < 0 ∧ 65 ∉ alphabet ∧ 1 < 3
      ∧ encode 0x4006e0 ([104, 101, 121].set 1 65) = encode 0x4006e0 ([104, 101, 121].set 1 32) :=
  ⟨by decide, by decide, by decide,
    encode_substitutes_space 0x4006e0 (by decide) 65 (by decide) 1 (by decide) 104 101 121⟩

/-- C6 fails for the fields whose index is 31: `decode` then writes entry 31 of
the array, the terminating NUL, which is not a character of the alphabet. -/
theorem decode_yields_nul :
    decode [128, 31] = some [97, 97, 0] ∧ 0 ∉ alphabetChars := by
  decide

/-- C6, amended: for every two input bytes the three indices `decode` extracts,
`b0 / 4 % 32`, `b0 % 4 * 8 + b1 / 32 % 8` and `b1 % 32`, are below 32, the
length of the alphabet array, so no lookup is out of range; `decode` outputs
exactly the three entries of the array at these indices, each of them one of
the 31 characters of the alphabet or the terminating NUL (entry 31). -/
theorem decode_total (b0 b1 : Nat) :
    alphabet.length = 32
      ∧ b0 / 4 % 32 < 32 ∧ b0 % 4 * 8 + b1 / 32 % 8 < 32 ∧ b1 % 32 < 32
      ∧ ∃ x0 x1 x2, alphabet.get? (b0 / 4 % 32) = some x0
          ∧ alphabet.get? (b0 % 4 * 8 + b1 / 32 % 8) = some x1
          ∧ alphabet.get? (b1 % 32) = some x2
          ∧ decode [b0, b1] = some [x0, x1, x2]
          ∧ (x0 ∈ alphabetChars ∨ x0 = 0) ∧ (x1 ∈ alphabetChars ∨ x1 = 0)
          ∧ (x2 ∈ alphabetChars ∨ x2 = 0) := by
  have hmem : ∀ i, i < 32 → (alphabet.getD i 0 ∈ alphabetChars ∨ alphabet.getD i 0 = 0) := by
    decide
  have h0 : b0 / 4 % 32 < 32 := Nat.mod_lt _ (by decide)
  have h1 : b0 % 4 * 8 + b1 / 32 % 8 < 32 := by omega
  have h2 : b1 % 32 < 32 := Nat.mod_lt _ (by decide)
  refine ⟨rfl, h0, h1, h2, _, _, _, alphabet_get? _ h0, alphabet_get? _ h1, alphabet_get? _ h2,
    ?_, hmem _ h0, hmem _ h1, hmem _ h2⟩
  rw [decode_bytes]
  rfl

/-! ## Lemmas on the checksum -/

theorem sumWords_words16 : ∀ (n : Nat) (buf : List Nat) (sum : Nat), n ≤ buf.length →
    (if (sumWords buf n sum).2.2 = 1
      then (sumWords buf n sum).1 + (sumWords buf n sum).2.1.getD 0 0
      else (sumWords buf n sum).1) = sum + (words16 (buf.take n)).sum
  | 0, buf, sum, _ => by simp [sumWords, words16]
  | 1, [], sum, h => by simp at h
  | 1, a :: rest, sum, _ => by simp [sumWords, words16]
  | n + 2, [], sum, h => by simp at h
  | n + 2, [a], sum, h => by simp at h
  | n + 2, a :: b :: rest, sum, h => by
    have hn : n ≤ rest.length := by simpa using h
    have ih := sumWords_words16 n rest (sum + load16 (a :: b :: rest) 0) hn
    simp only [sumWords, List.drop_succ_cons, List.drop_zero, List.take_succ_cons, words16,
      List.sum_cons]
    rw [ih]
    simp only [load16, List.getD_cons_zero, List.getD_cons_succ]
    omega

theorem udp_sum_words16 (buf : List Nat) (bytes : Int) (h : bytes ≤ buf.length) :
    udp_sum buf bytes = (words16 (buf.take bytes.toNat)).sum := by
  have hn : bytes.toNat ≤ buf.length := by omega
  have e := sumWords_words16 bytes.toNat buf 0 hn
  simpa [udp_sum] using e

theorem words16_lt : ∀ (l : List Nat), (∀ b ∈ l, b < 256) → ∀ w ∈ words16 l, w < 65536
  | [], _, w, hw => by simp [words16] at hw
  | [a], h, w, hw => by
    have ha := h a (by simp)
    simp [words16] at hw
    omega
  | a :: b :: rest, h, w, hw => by
    have ha := h a (by simp)
    have hb := h b (by simp)
    simp only [words16, List.mem_cons] at hw
    rcases hw with e | hw
    · omega
    · exact words16_lt rest (fun x hx => h x (by simp [hx])) w hw

theorem words16_sum_le : ∀ (l : List Nat), (∀ b ∈ l, b < 256) →
    (words16 l).sum ≤ 65535 * ((l.length + 1) / 2)
  | [], _ => by simp [words16]
  | [a], h => by
    have ha := h a (by simp)
    simp [words16]
    omega
  | a :: b :: rest, h => by
    have ha := h a (by simp)
    have hb := h b (by simp)
    have ih := words16_sum_le rest (fun x hx => h x (by simp [hx]))
    simp only [words16, List.sum_cons, List.length_cons]
    omega

theorem onesAdd_onesNorm (s w : Nat) (hw : w < 65536) :
    onesAdd (onesNorm s) w = onesNorm (s + w) := by
  unfold onesAdd onesNorm
  split_ifs <;> omega

theorem foldl_onesAdd : ∀ (ws : List Nat) (s : Nat), (∀ w ∈ ws, w < 65536) →
    ws.foldl onesAdd (onesNorm s) = onesNorm (s + ws.sum)
  | [], s, _ => by simp
  | w :: ws, s, h => by
    have hw := h w (by simp)
    rw [List.foldl_cons, onesAdd_onesNorm s w hw,
      foldl_onesAdd ws (s + w) (fun x hx => h x (by simp [hx])), List.sum_cons, Nat.add_assoc]

theorem internetChecksum_eq (data : List Nat) (h : ∀ b ∈ data, b < 256) :
    internetChecksum data = 65535 - onesNorm (words16 data).sum := by
  have e := foldl_onesAdd (words16 data) 0 (words16_lt data h)
  have z : onesNorm 0 = 0 := rfl
  rw [z, Nat.zero_add] at e
  rw [internetChecksum, e]

theorem fold1_arith (s : Nat) : fold1 s = s / 65536 + s % 65536 := by
  have e : (0xffff : Nat) = 2 ^ 16 - 1 := by norm_num
  simp only [fold1, Nat.shiftRight_eq_div_pow, e, Nat.and_pow_two_sub_one_eq_mod]

theorem fold16_arith (s : Nat) : fold16 s = fold1 s + fold1 s / 65536 := by
  simp only [fold16, Nat.shiftRight_eq_div_pow]

theorem onesNorm_of_low (s : Nat) (hs : s ≠ 0) (h : s / 65536 + s % 65536 ≤ 65535) :
    onesNorm s = s / 65536 + s % 65536 := by
  have e : s - 1 = 65535 * (s / 65536) + (s / 65536 + s % 65536 - 1) := by omega
  have r : (s - 1) % 65535 = s / 65536 + s % 65536 - 1 := by
    rw [e, Nat.mul_add_mod]
    exact Nat.mod_eq_of_lt (by omega)
  simp only [onesNorm, hs, if_false, r]
  omega

theorem onesNorm_of_high (s : Nat) (h1 : 65536 ≤ s / 65536 + s % 65536)
    (h2 : s / 65536 + s % 65536 ≤ 131070) :
    onesNorm s = s / 65536 + s % 65536 - 65535 := by
  have hs : s ≠ 0 := by omega
  have e : s - 1 = 65535 * (s / 65536 + 1) + (s / 65536 + s % 65536 - 65536) := by omega
  have r : (s - 1) % 65535 = s / 65536 + s % 65536 - 65536 := by
    rw [e, Nat.mul_add_mod]
    exact Nat.mod_eq_of_lt (by omega)
  simp only [onesNorm, hs, if_false, r]
  omega

theorem fold16_onesNorm (s : Nat) (h : s ≤ 4295032830) :
    fold1 s % 65536 + fold1 s / 65536 < 65536 ∧ fold16 s % 65536 = onesNorm s := by
  rw [fold16_arith, fold1_arith]
  by_cases hs : s = 0
  · subst hs; decide
  · by_cases hl : s / 65536 + s % 65536 ≤ 65535
    · rw [onesNorm_of_low s hs hl]
      generalize s / 65536 + s % 65536 = t at hl
      omega
    · have h1 : 65536 ≤ s / 65536 + s % 65536 := by omega
      have h2 : s / 65536 + s % 65536 ≤ 131070 := by omega
      rw [onesNorm_of_high s h1 h2]
      generalize s / 65536 + s % 65536 = t at h1 h2
      omega

theorem words16_replicate : ∀ (k : Nat) (tail : List Nat),
    words16 (List.replicate (2 * k) 255 ++ tail) = List.replicate k 65535 ++ words16 tail
  | 0, tail => by simp
  | k + 1, tail => by
    have e : 2 * (k + 1) = (2 * k + 1) + 1 := by omega
    rw [e, List.replicate_succ, List.replicate_succ, List.cons_append, List.cons_append, words16,
      words16_replicate k tail, List.replicate_succ, List.cons_append]

theorem long_mem (k : Nat) : ∀ b ∈ List.replicate (2 * k) 255 ++ [1], b < 256 := by
  intro b hb
  rcases List.mem_append.mp hb with h | h
  · rw [List.eq_of_mem_replicate h]; decide
  · rw [List.mem_singleton.mp h]; decide

theorem long_length (k : Nat) : (List.replicate (2 * k) 255 ++ [1]).length = 2 * k + 1 := by
  rw [List.length_append, List.length_replicate]
  rfl

theorem long_words_sum (k : Nat) :
    (words16 (List.replicate (2 * k) 255 ++ [1])).sum = 65535 * k + 1 := by
  rw [words16_replicate, List.sum_append, List.sum_replicate]
  simp [words16]
  omega

theorem udp_sum_long (k : Nat) :
    udp_sum (List.replicate (2 * k) 255 ++ [1]) ((2 * k + 1 : Nat) : Int) = 65535 * k + 1 := by
  have hl := long_length k
  rw [udp_sum_words16 _ _ (by rw [hl]), Int.toNat_ofNat, ← hl, List.take_length,
    long_words_sum]

/-! ## The checksum claim -/

/-- C3 fails for a buffer of 131077 bytes, 131076 bytes `0xff` and a last byte 1:
the sum of its words is `2^32 + 65535`, the second folding step carries out of
bit 15 once more, and `udp_checksum` returns 65535 where the Internet checksum
is 65534. -/
theorem udp_checksum_long_buffer :
    longBuffer.length = 131077 ∧ (∀ b ∈ longBuffer, b < 256)
      ∧ udp_sum longBuffer 131077 = 4295032831
      ∧ fold1 (udp_sum longBuffer 131077) % 65536 + fold1 (udp_sum longBuffer 131077) / 65536
          = 65536
      ∧ udp_checksum longBuffer 131077 = 65535
      ∧ internetChecksum (longBuffer.take 131077) = 65534 := by
  have hs : udp_sum longBuffer 131077 = 4295032831 := udp_sum_long 65538
  have hl : longBuffer.length = 131077 := long_length 65538
  have hm : ∀ b ∈ longBuffer, b < 256 := long_mem 65538
  have hw : (words16 longBuffer).sum = 4295032831 := long_words_sum 65538
  have ht : longBuffer.take 131077 = longBuffer := by
    rw [← hl, List.take_length]
  refine ⟨hl, hm, hs, ?_, ?_, ?_⟩
  · rw [hs, fold1_arith]
  · rw [udp_checksum, hs, fold16_arith, fold1_arith]
  · rw [ht, internetChecksum_eq _ hm, hw]
    decide

/-- C3, amended: for every buffer of bytes and every length of at most 131076
bytes within the buffer, `udp_checksum` returns the standard Internet checksum
of the first `bytes` bytes: the 16-bit complement of the end-around-carry sum of
the buffer read as 16-bit words, an odd final byte padded with a zero byte; the
second folding step adds the carry of the first into the low 16 bits without a
further carry out of bit 15. -/
theorem udp_checksum_standard (buf : List Nat) (bytes : Int) (hb : ∀ b ∈ buf, b < 256)
    (hlen : bytes ≤ buf.length) (hmax : bytes ≤ 131076) :
    fold1 (udp_sum buf bytes) % 65536 + fold1 (udp_sum buf bytes) / 65536 < 65536
      ∧ udp_checksum buf bytes = internetChecksum (buf.take bytes.toNat) := by
  have ht : ∀ b ∈ buf.take bytes.toNat, b < 256 := fun b h => hb b (List.mem_of_mem_take h)
  have hsum := words16_sum_le _ ht
  have hle : (buf.take bytes.toNat).length ≤ 131076 := by
    rw [List.length_take]; omega
  have hs : udp_sum buf bytes ≤ 4295032830 := by
    rw [udp_sum_words16 buf bytes hlen]
    omega
  have hf := fold16_onesNorm _ hs
  refine ⟨hf.1, ?_⟩
  rw [udp_checksum, hf.2, internetChecksum_eq _ ht, udp_sum_words16 buf bytes hlen]

/-- C3, amended, at 12 zero bytes followed by `0x12`, `0x34`: the checksum is the
complement of the one word these two bytes form. -/
theorem udp_checksum_standard_witness :
    (∀ b ∈ [0, 0, 0, 0, 0, 0, 0, 0, 0, 0, 0, 0, 0x12, 0x34], b < 256)
      ∧ ((14 : Int) ≤ ([0, 0, 0, 0, 0, 0, 0, 0, 0, 0, 0, 0, 0x12, 0x34] : List Nat).length)
      ∧ udp_checksum [0, 0, 0, 0, 0, 0, 0, 0, 0, 0, 0, 0, 0x12, 0x34] 14
          = internetChecksum [0, 0, 0, 0, 0, 0, 0, 0, 0, 0, 0, 0, 0x12, 0x34]
      ∧ udp_checksum [0, 0, 0, 0, 0, 0, 0, 0, 0, 0, 0, 0, 0x12, 0x34] 14
          = 65535 - load16 [0x12, 0x34] 0 :=
  ⟨by decide, by decide,
    (udp_checksum_standard [0, 0, 0, 0, 0, 0, 0, 0, 0, 0, 0, 0, 0x12, 0x34] 14 (by decide)
      (by decide) (by decide)).2,
    by decide⟩

/-! ## Lemmas on the datagram header -/

theorem htons_lt (x : Nat) : htons x < 65536 := by
  unfold htons; omega

theorem swap16 (lo hi : Nat) (hlo : lo < 256) (hhi : hi < 256) :
    (lo * 256 + hi) % 256 * 256 + (lo * 256 + hi) / 256 % 256 = hi * 256 + lo := by
  have e1 : (lo * 256 + hi) % 256 = hi := by omega
  have e2 : (lo * 256 + hi) / 256 = lo := by omega
  rw [e1, e2, Nat.mod_eq_of_lt hlo]

theorem ntohs_htons (x : Nat) : ntohs (htons x) = x % 65536 := by
  unfold ntohs htons
  rw [swap16 _ _ (Nat.mod_lt _ (by decide)) (Nat.mod_lt _ (by decide))]
  omega

theorem udp_checksum_lt (buf : List Nat) (bytes : Int) : udp_checksum buf bytes < 65536 := by
  unfold udp_checksum; omega

theorem encode_pair (addr : Nat) (buffer : List Nat) :
    ∃ x0 x1, encode addr buffer = [x0, x1] ∧ x0 < 256 ∧ x1 < 256 := by
  have h0 : encodeIndex addr (buffer.getD 0 0) % 32 < 32 := Nat.mod_lt _ (by decide)
  have h1 : encodeIndex addr (buffer.getD 1 0) % 32 < 32 := Nat.mod_lt _ (by decide)
  have h2 : encodeIndex addr (buffer.getD 2 0) % 32 < 32 := Nat.mod_lt _ (by decide)
  refine ⟨_, _, encode_bytes addr buffer, ?_, ?_⟩
  · generalize encodeIndex addr (buffer.getD 0 0) % 32 = m0 at h0 ⊢
    generalize encodeIndex addr (buffer.getD 1 0) % 32 = m1 at h1 ⊢
    omega
  · generalize encodeIndex addr (buffer.getD 1 0) % 32 = m1 at h1 ⊢
    generalize encodeIndex addr (buffer.getD 2 0) % 32 = m2 at h2 ⊢
    omega

theorem htons_lo (v : Nat) : htons v % 256 = v / 256 % 256 := by
  unfold htons; omega

theorem htons_hi (v : Nat) : htons v / 256 % 256 = v % 256 := by
  unfold htons
  have h1 : v % 256 < 256 := Nat.mod_lt _ (by decide)
  have h2 : v / 256 % 256 < 256 := Nat.mod_lt _ (by decide)
  generalize v % 256 = lo at h1 ⊢
  generalize v / 256 % 256 = hi at h2 ⊢
  omega

theorem store16_zero (b0 b1 : Nat) (t : List Nat) (v : Nat) :
    store16 (b0 :: b1 :: t) 0 v = (v % 256) :: (v / 256 % 256) :: t := rfl

theorem store16_succ (b : Nat) (t : List Nat) (i v : Nat) :
    store16 (b :: t) (i + 1) v = b :: store16 t i v := rfl

theorem load16_zero (b0 b1 : Nat) (t : List Nat) : load16 (b0 :: b1 :: t) 0 = b0 + 256 * b1 := rfl

theorem load16_succ (b : Nat) (t : List Nat) (i : Nat) :
    load16 (b :: t) (i + 1) = load16 t i := rfl

theorem blit_zero_pair (b0 b1 : Nat) (t : List Nat) (x0 x1 : Nat) :
    blit (b0 :: b1 :: t) 0 [x0, x1] = x0 :: x1 :: t := rfl

theorem blit_succ (b : Nat) (t : List Nat) (i : Nat) (src : List Nat) :
    blit (b :: t) (i + 1) src = b :: blit t i src := by
  simp only [blit, List.take_succ_cons, List.cons_append]
  have e : i + 1 + src.length = (i + src.length) + 1 := by omega
  rw [e, List.drop_succ_cons]

theorem exists_cons8 (l : List Nat) (h : 8 ≤ l.length) :
    ∃ a0 a1 a2 a3 a4 a5 a6 a7 rest, l = a0 :: a1 :: a2 :: a3 :: a4 :: a5 :: a6 :: a7 :: rest := by
  match l, h with
  | a0 :: a1 :: a2 :: a3 :: a4 :: a5 :: a6 :: a7 :: rest, _ =>
    exact ⟨a0, a1, a2, a3, a4, a5, a6, a7, rest, rfl⟩

/-- The datagram that `assemble` leaves in a buffer of at least 8 bytes: the two
encoded ports with their bytes swapped, the length and the checksum, and the
payload untouched. -/
theorem assemble_eq {addr : Nat} (covert_buffer buffer : List Nat) (source_addr dest_addr packet_size : Nat)
    (h : 8 ≤ buffer.length) :
    assemble addr covert_buffer buffer source_addr dest_addr packet_size
      = [(encode addr covert_buffer).getD 1 0, (encode addr covert_buffer).getD 0 0,
         (encode addr (covert_buffer.drop 3)).getD 1 0, (encode addr (covert_buffer.drop 3)).getD 0 0,
         (8 + packet_size) / 256 % 256, (8 + packet_size) % 256,
         udp_checksum (pseudoHeader source_addr dest_addr packet_size) 12 % 256,
         udp_checksum (pseudoHeader source_addr dest_addr packet_size) 12 / 256 % 256]
        ++ buffer.drop 8 := by
  obtain ⟨a0, a1, a2, a3, a4, a5, a6, a7, rest, rfl⟩ := exists_cons8 buffer h
  obtain ⟨x0, x1, e0, hx0, hx1⟩ := encode_pair addr covert_buffer
  obtain ⟨y0, y1, e1, hy0, hy1⟩ := encode_pair addr (covert_buffer.drop 3)
  have hc := udp_checksum_lt (pseudoHeader source_addr dest_addr packet_size) 12
  have p2 : (2 : Nat) = 1 + 1 := rfl
  have p4 : (4 : Nat) = 1 + 1 + 1 + 1 := rfl
  have p6 : (6 : Nat) = 1 + 1 + 1 + 1 + 1 + 1 := rfl
  unfold assemble
  simp only [e0, e1, blit_zero_pair]
  rw [p2, p4, p6]
  simp only [blit_succ, blit_zero_pair, store16_succ, store16_zero, load16_succ, load16_zero]
  simp only [htons_lo, htons_hi]
  have q0 : (x0 + 256 * x1) / 256 % 256 = x1 := by omega
  have q1 : (x0 + 256 * x1) % 256 = x0 := by omega
  have r0 : (y0 + 256 * y1) / 256 % 256 = y1 := by omega
  have r1 : (y0 + 256 * y1) % 256 = y0 := by omega
  rw [q0, q1, r0, r1]
  rfl

theorem mem_append_right (hdr d : List Nat) (n : Nat) :
    mem (hdr ++ d) hdr.length n = mem d 0 n := by
  unfold mem
  apply List.map_congr_left
  intro k _
  rw [List.getD_append_right _ _ _ _ (Nat.le_add_right _ _), Nat.add_sub_cancel_left,
    Nat.zero_add]

theorem mem_cons8 (a0 a1 a2 a3 a4 a5 a6 a7 : Nat) (rest : List Nat) :
    mem (a0 :: a1 :: a2 :: a3 :: a4 :: a5 :: a6 :: a7 :: rest) 0 8
      = [a0, a1, a2, a3, a4, a5, a6, a7] := rfl

theorem decode_two_bytes (x0 x1 : Nat) (t : List Nat) : decode (x0 :: x1 :: t) = decode [x0, x1] := by
  rw [decode_bytes, decode_bytes]
  rfl

theorem ntohs_swapped (lo hi : Nat) (h0 : lo < 256) (h1 : hi < 256) :
    ntohs (lo + 256 * hi) = lo * 256 + hi := by
  have e1 : (lo + 256 * hi) % 256 = lo := by omega
  have e2 : (lo + 256 * hi) / 256 = hi := by omega
  rw [ntohs, e1, e2, Nat.mod_eq_of_lt h1]

theorem split16 (v : Nat) : v / 256 % 256 * 256 + v % 256 = v % 65536 := by
  omega

theorem assemble_length {addr : Nat} (covert_buffer buffer : List Nat) (source_addr dest_addr packet_size : Nat)
    (h : 8 ≤ buffer.length) :
    (assemble addr covert_buffer buffer source_addr dest_addr packet_size).length = buffer.length := by
  rw [assemble_eq _ _ _ _ _ h, List.length_append, List.length_drop]
  simp only [List.length_cons, List.length_nil]
  omega

/-- The server's `covert_text` for a frame that ends in an assembled datagram:
the two decoded port fields. -/
theorem serverCovertText_assemble {addr : Nat} (hdr covert_buffer buffer : List Nat)
    (source_addr dest_addr packet_size : Nat) (h : 8 ≤ buffer.length) :
    serverCovertText (hdr ++ assemble addr covert_buffer buffer source_addr dest_addr packet_size)
        hdr.length
      = (decode (encode addr covert_buffer)).bind
          (fun a => (decode (encode addr (covert_buffer.drop 3))).map (fun b => a ++ b)) := by
  obtain ⟨x0, x1, e0, hx0, hx1⟩ := encode_pair addr covert_buffer
  obtain ⟨y0, y1, e1, hy0, hy1⟩ := encode_pair addr (covert_buffer.drop 3)
  have p2 : (2 : Nat) = 1 + 1 := rfl
  rw [serverCovertText, mem_append_right, assemble_eq _ _ _ _ _ h, e0, e1]
  simp only [List.getD_cons_zero, List.getD_cons_succ, List.cons_append, List.nil_append,
    mem_cons8]
  rw [p2]
  simp only [store16_succ, store16_zero, load16_succ, load16_zero,
    ntohs_swapped _ _ hx1 hx0, ntohs_swapped _ _ hy1 hy0]
  have q0 : (x1 * 256 + x0) / 256 % 256 = x1 := by omega
  have q1 : (x1 * 256 + x0) % 256 = x0 := by omega
  have r0 : (y1 * 256 + y0) / 256 % 256 = y1 := by omega
  have r1 : (y1 * 256 + y0) % 256 = y0 := by omega
  rw [q0, q1, r0, r1]
  simp only [List.drop_succ_cons, List.drop_zero]
  rw [decode_two_bytes x0 x1, decode_two_bytes y0 y1]

theorem load16_len_assemble {addr : Nat} (covert_buffer buffer : List Nat)
    (source_addr dest_addr packet_size : Nat) (h : 8 ≤ buffer.length) :
    ntohs (load16 (assemble addr covert_buffer buffer source_addr dest_addr packet_size) 4)
      = (8 + packet_size) % 65536 := by
  have p4 : (4 : Nat) = 1 + 1 + 1 + 1 := rfl
  rw [assemble_eq _ _ _ _ _ h]
  simp only [List.cons_append, List.nil_append]
  rw [p4]
  simp only [load16_succ, load16_zero]
  rw [ntohs_swapped _ _ (Nat.mod_lt _ (by decide)) (Nat.mod_lt _ (by decide)), split16]

theorem serverPayloadLength_assemble {addr : Nat} (hdr covert_buffer buffer : List Nat)
    (source_addr dest_addr packet_size : Nat) (h : 8 ≤ buffer.length) :
    serverPayloadLength (hdr ++ assemble addr covert_buffer buffer source_addr dest_addr packet_size)
        hdr.length
      = (((8 + packet_size) % 65536 : Nat) : Int) - 8 := by
  have p4 : (4 : Nat) = 1 + 1 + 1 + 1 := rfl
  rw [serverPayloadLength, mem_append_right, assemble_eq _ _ _ _ _ h]
  simp only [List.cons_append, List.nil_append, mem_cons8]
  rw [p4]
  simp only [load16_succ, load16_zero]
  rw [ntohs_swapped _ _ (Nat.mod_lt _ (by decide)) (Nat.mod_lt _ (by decide)), split16]

theorem load16_check_assemble {addr : Nat} (covert_buffer buffer : List Nat)
    (source_addr dest_addr packet_size : Nat) (h : 8 ≤ buffer.length) :
    load16 (assemble addr covert_buffer buffer source_addr dest_addr packet_size) 6
      = udp_checksum (pseudoHeader source_addr dest_addr packet_size) 12 := by
  have p6 : (6 : Nat) = 1 + 1 + 1 + 1 + 1 + 1 := rfl
  have hc := udp_checksum_lt (pseudoHeader source_addr dest_addr packet_size) 12
  rw [assemble_eq _ _ _ _ _ h]
  simp only [List.cons_append, List.nil_append]
  rw [p6]
  simp only [load16_succ, load16_zero]
  omega

/-! ## Lemmas on the cover payload -/

theorem blit_nil (buf : List Nat) (off : Nat) : blit buf off [] = buf := by
  simp [blit]

theorem blit_length (buf : List Nat) (off : Nat) (src : List Nat)
    (h : off + src.length ≤ buf.length) : (blit buf off src).length = buf.length := by
  simp only [blit, List.length_append, List.length_take, List.length_drop]
  omega

theorem blit_blit (buf : List Nat) (off : Nat) (a b : List Nat) (h : off ≤ buf.length) :
    blit (blit buf off a) (off + a.length) b = blit buf off (a ++ b) := by
  have hl : (buf.take off ++ a).length = off + a.length := by
    rw [List.length_append, List.length_take, Nat.min_eq_left h]
  have e1 : (blit buf off a).take (off + a.length) = buf.take off ++ a := by
    rw [blit, List.take_left' hl]
  have e2 : (blit buf off a).drop (off + a.length + b.length)
      = buf.drop (off + (a ++ b).length) := by
    rw [blit, ← hl, List.drop_append, List.drop_drop, hl, List.length_append]
    congr 1
    omega
  rw [blit, e1, e2, blit]
  simp only [List.append_assoc]

theorem cyclicBytes_length (data : List Nat) (pos n : Nat) :
    (cyclicBytes data pos n).length = n := by
  simp [cyclicBytes]

theorem cyclicBytes_add (data : List Nat) (pos k m : Nat) :
    cyclicBytes data pos (k + m) = cyclicBytes data pos k ++ cyclicBytes data (pos + k) m := by
  simp only [cyclicBytes, List.range_add, List.map_append, List.map_map]
  congr 1
  apply List.map_congr_left
  intro i _
  simp only [Function.comp, Nat.add_assoc]

theorem cyclicBytes_wrap (data : List Nat) (n : Nat) :
    cyclicBytes data data.length n = cyclicBytes data 0 n := by
  simp only [cyclicBytes]
  apply List.map_congr_left
  intro i _
  rw [Nat.add_mod_left, Nat.zero_add]

theorem take_drop_eq_cyclicBytes (data : List Nat) (pos k : Nat) (h : pos + k ≤ data.length) :
    (data.drop pos).take k = cyclicBytes data pos k := by
  apply List.ext_getElem
  · rw [cyclicBytes_length, List.length_take, List.length_drop]
    omega
  · intro i h1 h2
    rw [cyclicBytes_length] at h2
    have hi : pos + i < data.length := by omega
    simp only [cyclicBytes, List.getElem_take, List.getElem_drop, List.getElem_map,
      List.getElem_range, Nat.mod_eq_of_lt hi, List.getD_eq_getElem _ _ hi]

theorem fread_length (f : FILE) (n : Nat) :
    (fread f n).1.length = min n (f.data.length - f.pos) := by
  simp [fread, List.length_take, List.length_drop]

theorem fread_at_end (f : FILE) (n : Nat) (h : f.data.length ≤ f.pos) : (fread f n).1 = [] := by
  simp [fread, List.drop_eq_nil_of_le h]

theorem fillDummy_zero (p fuel : Nat) (f : FILE) (buf : List Nat) :
    fillDummy p (fuel + 1) f buf 0 = some (f, buf) := by
  simp [fillDummy]

theorem fillDummy_step (p fuel : Nat) (f : FILE) (buf : List Nat) (btr : Nat) (h : 0 < btr) :
    fillDummy p (fuel + 1) f buf btr
      = fillDummy p fuel (if (fread f btr).1.length = 0 then rewind (fread f btr).2
            else (fread f btr).2)
          (blit buf (8 + (p - btr)) (fread f btr).1) (btr - (fread f btr).1.length) := by
  rw [fillDummy, if_pos h]

/-- The loop that reads the dummy data ends on a source that is not empty, and
has then written the bytes of the source, continued cyclically from the read
position, over the last `btr` bytes of the payload. -/
theorem fillDummy_run (p : Nat) : ∀ (fuel : Nat) (f : FILE) (buf : List Nat) (btr : Nat),
    f.data ≠ [] → f.pos ≤ f.data.length → buf.length = 8 + p → btr ≤ p →
    2 * btr + (if f.pos = f.data.length then 1 else 0) + 1 ≤ fuel →
    ∃ f', fillDummy p fuel f buf btr
        = some (f', blit buf (8 + (p - btr)) (cyclicBytes f.data f.pos btr))
      ∧ f'.data = f.data ∧ f'.pos ≤ f'.data.length
  | 0, _, _, _, _, _, _, _, hf => by omega
  | fuel + 1, f, buf, btr, hd, hp, hb, hbtr, hf => by
    have hlen : 0 < f.data.length := List.length_pos.mpr hd
    by_cases h0 : btr = 0
    · subst h0
      refine ⟨f, ?_, rfl, hp⟩
      rw [fillDummy_zero]
      simp [cyclicBytes, blit_nil]
    · have hpos : 0 < btr := Nat.pos_of_ne_zero h0
      rw [fillDummy_step p fuel f buf btr hpos]
      by_cases he : f.pos = f.data.length
      · have hg : (fread f btr).1 = [] := fread_at_end f btr (by omega)
        rw [hg, List.length_nil, if_pos rfl, blit_nil, Nat.sub_zero]
        have hne : ¬ (rewind (fread f btr).2).pos = (rewind (fread f btr).2).data.length := by
          show ¬ 0 = f.data.length
          omega
        have hfuel : 2 * btr + (if (rewind (fread f btr).2).pos
            = (rewind (fread f btr).2).data.length then 1 else 0) + 1 ≤ fuel := by
          rw [if_neg hne]
          rw [if_pos he] at hf
          omega
        obtain ⟨f', e, hd', hp'⟩ := fillDummy_run p fuel (rewind (fread f btr).2) buf btr hd
          (Nat.zero_le _) hb hbtr hfuel
        refine ⟨f', ?_, hd', hp'⟩
        rw [e]
        show some (f', blit buf (8 + (p - btr)) (cyclicBytes f.data 0 btr)) = _
        rw [he, cyclicBytes_wrap]
      · have hk := fread_length f btr
        have hk0 : (fread f btr).1.length ≠ 0 := by omega
        have hkle : f.pos + (fread f btr).1.length ≤ f.data.length := by omega
        have hgot : (fread f btr).1 = cyclicBytes f.data f.pos (fread f btr).1.length := by
          have e := take_drop_eq_cyclicBytes f.data f.pos (fread f btr).1.length hkle
          rw [← e]
          show List.take btr (List.drop f.pos f.data) = _
          rw [List.take_eq_take, List.length_drop]
          omega
        have hkb : (fread f btr).1.length ≤ btr := by omega
        have hoff : 8 + (p - (btr - (fread f btr).1.length))
            = 8 + (p - btr) + (fread f btr).1.length := by omega
        have hb2 : (blit buf (8 + (p - btr)) (fread f btr).1).length = 8 + p := by
          rw [blit_length _ _ _ (by omega), hb]
        have hone : (if (fread f btr).2.pos = (fread f btr).2.data.length then 1 else 0) ≤ 1 := by
          split <;> omega
        have hfuel : 2 * (btr - (fread f btr).1.length)
            + (if (fread f btr).2.pos = (fread f btr).2.data.length then 1 else 0) + 1 ≤ fuel := by
          omega
        rw [if_neg hk0]
        obtain ⟨f', e, hd', hp'⟩ := fillDummy_run p fuel (fread f btr).2
          (blit buf (8 + (p - btr)) (fread f btr).1) (btr - (fread f btr).1.length) hd hkle hb2
          (by omega) hfuel
        refine ⟨f', ?_, hd', hp'⟩
        rw [e, hoff, blit_blit _ _ _ _ (by omega)]
        have hc : (fread f btr).1 ++ cyclicBytes (fread f btr).2.data (fread f btr).2.pos
            (btr - (fread f btr).1.length) = cyclicBytes f.data f.pos btr := by
          have hsplit : btr = (fread f btr).1.length + (btr - (fread f btr).1.length) := by omega
          conv_rhs => rw [hsplit, cyclicBytes_add]
          conv_lhs => rw [hgot]
          rw [cyclicBytes_length]
          rfl
        rw [hc]

theorem fillDummy_empty (p : Nat) : ∀ (fuel pos : Nat) (buf : List Nat) (btr : Nat), 0 < btr →
    fillDummy p fuel { data := [], pos := pos } buf btr = none
  | 0, _, _, _, _ => rfl
  | fuel + 1, pos, buf, btr, h => by
    rw [fillDummy_step p fuel _ buf btr h]
    have hg : (fread { data := [], pos := pos } btr).1 = [] := fread_at_end _ btr (Nat.zero_le _)
    rw [hg, List.length_nil, if_pos rfl, blit_nil, Nat.sub_zero]
    exact fillDummy_empty p fuel 0 buf btr h

theorem mem_getD (buf : List Nat) (off n j : Nat) (h : j < n) :
    (mem buf off n).getD j 0 = buf.getD (off + j) 0 := by
  simp [mem, List.getElem?_range h]

theorem load32_mem (buf : List Nat) : load32 (mem buf 0 20) 12 = load32 buf 12 := by
  simp only [load32]
  rw [mem_getD _ _ _ _ (by decide), mem_getD _ _ _ _ (by decide), mem_getD _ _ _ _ (by decide),
    mem_getD _ _ _ _ (by decide)]

theorem clientLoop_empty_dummy {addr : Nat} (sendto : List Nat → Bool) (s d p fuel : Nat) (hp : 0 < p) :
    ∀ (rounds : Nat) (st : ClientState), st.dummy_file = { data := [], pos := 0 } →
      st.covert_running = true → clientLoop addr sendto s d p fuel rounds st = none
  | 0, _, _, _ => rfl
  | rounds + 1, st, hd, hrun => by
    rw [clientLoop, if_pos hrun, hd, fillDummy_empty p fuel 0 _ p hp]
    cases readCovert fuel st.covert_file st.covert_buffer 6 st.covert_running with
    | none => rfl
    | some r => rfl

/-! ## The claims on the datagram, the cover payload and the filter -/

/-- C7 fails on the one datagram the client sends for an empty covert file, a
dummy file of one byte 1 and `packet_size = 1`: the checksum field holds 58879,
the checksum of the 12 bytes of the pseudo-header alone, where the checksum over
the pseudo-header followed by the UDP segment is 1609. -/
theorem checksum_field_omits_segment :
    client 0x4006e0 (fun _ => true) [] [1] 0 0 1 4 = some [[90, 235, 90, 235, 0, 9, 255, 229, 1]]
      ∧ load16 [90, 235, 90, 235, 0, 9, 255, 229, 1] 6 = 58879
      ∧ udp_checksum (pseudoHeader 0 0 1) 12 = 58879
      ∧ udp_checksum (pseudoHeader 0 0 1 ++ store16 [90, 235, 90, 235, 0, 9, 255, 229, 1] 6 0) 21
          = 1609 := by
  decide

/-- C8 fails for `packet_size = 65528`: `8 + 65528` does not fit the 16-bit length
field, which then holds 0, and the server's payload length comes out as -8. -/
theorem udp_length_wraps :
    ntohs (load16 (assemble 0x4006e0 (List.replicate 7 32) (List.replicate (8 + 65528) 0) 0 0 65528) 4) = 0
      ∧ serverPayloadLength
          (assemble 0x4006e0 (List.replicate 7 32) (List.replicate (8 + 65528) 0) 0 0 65528) 0 = -8 := by
  have hl : 8 ≤ (List.replicate (8 + 65528) 0).length := by
    rw [List.length_replicate]; exact Nat.le_add_right _ _
  have h1 := @load16_len_assemble 0x4006e0 (List.replicate 7 32) (List.replicate (8 + 65528) 0) 0 0 65528 hl
  have h2 := @serverPayloadLength_assemble 0x4006e0 [] (List.replicate 7 32)
    (List.replicate (8 + 65528) 0) 0 0 65528 hl
  rw [List.nil_append, List.length_nil] at h2
  exact ⟨h1, h2⟩

/-- C9 fails for an empty cover source: with the default `packet_size = 100` the
loop that reads the dummy data reads nothing, rewinds and repeats, so it has not
ended after any number of rounds, and the client, whatever its covert file, has
not returned after any number of rounds either. -/
theorem fillDummy_empty_source_never_ends (fuel : Nat) :
    fillDummy 100 fuel { data := [], pos := 0 } (List.replicate (8 + 100) 0) 100 = none
      ∧ ∀ (addr : Nat) (sendto : List Nat → Bool) (covert : List Nat)
            (source_addr dest_addr : Nat),
          client addr sendto covert [] source_addr dest_addr 100 fuel = none := by
  refine ⟨fillDummy_empty 100 fuel 0 _ 100 (by decide), ?_⟩
  intro addr sendto covert source_addr dest_addr
  unfold client
  rw [clientLoop_empty_dummy sendto source_addr dest_addr 100 fuel (by decide) fuel _ rfl rfl]
  rfl

/-- The cover payload cycles on a source that is not empty: read from position
`pos`, the loop that reads the dummy data ends within `2 * packet_size + 2` rounds
and has filled all `packet_size` payload bytes with the bytes of the source
continued cyclically from `pos`. -/
theorem fillDummy_cycles (data : List Nat) (pos : Nat) (buffer : List Nat) (packet_size fuel : Nat)
    (hd : data ≠ []) (hp : pos ≤ data.length) (hb : buffer.length = 8 + packet_size)
    (hf : 2 * packet_size + 2 ≤ fuel) :
    ∃ f', fillDummy packet_size fuel { data := data, pos := pos } buffer packet_size
        = some (f', buffer.take 8 ++ cyclicBytes data pos packet_size)
      ∧ f'.data = data := by
  have hone : (if pos = data.length then 1 else 0) ≤ 1 := by split <;> omega
  obtain ⟨f', e, hd', _⟩ := fillDummy_run packet_size fuel { data := data, pos := pos } buffer
    packet_size hd hp hb (Nat.le_refl _)
    (show 2 * packet_size + (if pos = data.length then 1 else 0) + 1 ≤ fuel by omega)
  refine ⟨f', ?_, hd'⟩
  rw [e, Nat.sub_self, Nat.add_zero, blit, cyclicBytes_length,
    List.drop_eq_nil_of_le (by omega), List.append_nil]

/-- The cover payload cycles, at the source "xyz" and a payload of 7 bytes. -/
theorem fillDummy_cycles_witness :
    ([120, 121, 122] : List Nat) ≠ [] ∧ 0 ≤ ([120, 121, 122] : List Nat).length
      ∧ (List.replicate 15 0).length = 8 + 7 ∧ 2 * 7 + 2 ≤ 16
      ∧ ∃ f', fillDummy 7 16 { data := [120, 121, 122], pos := 0 } (List.replicate 15 0) 7
          = some (f', (List.replicate 15 0).take 8 ++ cyclicBytes [120, 121, 122] 0 7)
        ∧ f'.data = [120, 121, 122] :=
  ⟨by decide, by decide, by decide, by decide,
    fillDummy_cycles [120, 121, 122] 0 (List.replicate 15 0) 7 16 (by decide) (by decide)
      (by decide) (by decide)⟩

/-- C10: for every received frame whose IP source address (bytes 12 to 15)
differs from the configured filter address, one round of the server's receive
loop leaves the covert output and the dummy output unchanged. -/
theorem server_filters (listening_addr : Nat) (st : ServerState) (buffer : List Nat)
    (h : load32 buffer 12 ≠ listening_addr % 4294967296) :
    serverIter listening_addr st buffer = some st := by
  have e : load32 (mem buffer 0 20) 12 ≠ listening_addr % 4294967296 := by
    rw [load32_mem]; exact h
  unfold serverIter
  exact if_pos e

/-- C10 at a frame from address 2 while the filter address is 1. -/
theorem server_filters_witness :
    load32 [69, 0, 0, 29, 0, 0, 0, 0, 64, 17, 0, 0, 2, 0, 0, 0, 1, 0, 0, 0,
        90, 235, 90, 235, 0, 9, 255, 229, 1] 12 ≠ 1 % 4294967296
      ∧ serverIter 1 { covert_out := [104], dummy_out := [120] }
          [69, 0, 0, 29, 0, 0, 0, 0, 64, 17, 0, 0, 2, 0, 0, 0, 1, 0, 0, 0,
            90, 235, 90, 235, 0, 9, 255, 229, 1]
        = some { covert_out := [104], dummy_out := [120] } :=
  ⟨by decide, server_filters 1 _ _ (by decide)⟩


/-! ## Lemmas on the send loop -/

theorem readCovert_zero (fuel : Nat) (f : FILE) (cb : List Nat) (running : Bool) :
    readCovert (fuel + 1) f cb 0 running = some (f, cb, 0, running) := by
  simp [readCovert]

theorem readCovert_step (fuel : Nat) (f : FILE) (cb : List Nat) (btr : Nat) (running : Bool)
    (h : 0 < btr) :
    readCovert (fuel + 1) f cb btr running
      = if (fread f btr).1.length = 0
          then some ((fread f btr).2, blit cb (6 - btr) (fread f btr).1, btr, false)
          else readCovert fuel (fread f btr).2 (blit cb (6 - btr) (fread f btr).1)
            (btr - (fread f btr).1.length) running := by
  rw [readCovert, if_pos h]

theorem padSpaces_blit (cb got : List Nat) (hcb : cb.length = 7) (hk : got.length ≤ 6) :
    padSpaces (blit cb 0 got) (6 - got.length)
      = got ++ List.replicate (6 - got.length) 32 ++ cb.drop 6 := by
  match cb, hcb with
  | [b0, b1, b2, b3, b4, b5, b6], _ =>
    match got, hk with
    | [], _ => rfl
    | [_], _ => rfl
    | [_, _], _ => rfl
    | [_, _, _], _ => rfl
    | [_, _, _, _], _ => rfl
    | [_, _, _, _, _], _ => rfl
    | [_, _, _, _, _, _], _ => rfl

theorem take_six_padded (dd : List Nat) :
    (dd ++ List.replicate 6 32).take 6
      = dd.take 6 ++ List.replicate (6 - (dd.take 6).length) 32 := by
  rw [List.take_append_eq_append_take, List.take_replicate, List.length_take]
  congr 2
  omega

/-- One pass of the loop that reads the covert data: up to six more characters of
the file are in `covert_buffer`, `bytes_to_read` is what is missing to six, and
`covert_running` tells whether six were read. -/
theorem readCovert_group (data : List Nat) (pos : Nat) (cb : List Nat) (fuel : Nat)
    (hf : 2 ≤ fuel) :
    readCovert fuel { data := data, pos := pos } cb 6 true
      = some ({ data := data, pos := pos + ((data.drop pos).take 6).length },
          blit cb 0 ((data.drop pos).take 6), 6 - ((data.drop pos).take 6).length,
          decide (6 ≤ data.length - pos)) := by
  obtain ⟨fuel, rfl⟩ : ∃ n, fuel = n + 2 := ⟨fuel - 2, by omega⟩
  have hk : ((data.drop pos).take 6).length = min 6 (data.length - pos) := by
    rw [List.length_take, List.length_drop]
  have hgot : (fread { data := data, pos := pos } 6).1 = (data.drop pos).take 6 := rfl
  have hfile : (fread { data := data, pos := pos } 6).2
      = { data := data, pos := pos + ((data.drop pos).take 6).length } := rfl
  rw [readCovert_step _ _ _ _ _ (by decide), hgot, hfile]
  by_cases hk0 : ((data.drop pos).take 6).length = 0
  · have e2 : decide (6 ≤ data.length - pos) = false := by
      rw [decide_eq_false_iff_not]; omega
    rw [if_pos hk0, e2, hk0]
  · rw [if_neg hk0]
    by_cases hk6 : ((data.drop pos).take 6).length = 6
    · have e2 : decide (6 ≤ data.length - pos) = true := by
        rw [decide_eq_true_iff]; omega
      rw [hk6, readCovert_zero, e2]
    · have hlt : 0 < 6 - ((data.drop pos).take 6).length := by omega
      have hend : (fread { data := data, pos := pos + ((data.drop pos).take 6).length }
          (6 - ((data.drop pos).take 6).length)).1 = [] := by
        apply fread_at_end
        show data.length ≤ pos + ((data.drop pos).take 6).length
        omega
      have e2 : decide (6 ≤ data.length - pos) = false := by
        rw [decide_eq_false_iff_not]; omega
      have hfile2 : (fread { data := data, pos := pos + ((data.drop pos).take 6).length }
          (6 - ((data.drop pos).take 6).length)).2
          = { data := data, pos := pos + ((data.drop pos).take 6).length
                + (fread { data := data, pos := pos + ((data.drop pos).take 6).length }
                    (6 - ((data.drop pos).take 6).length)).1.length } := rfl
      rw [readCovert_step _ _ _ _ _ hlt, hfile2, hend, List.length_nil, if_pos rfl, blit_nil, e2]
      rfl

/-- The six characters in `covert_buffer` after the loop that pads with spaces:
the next six of the file, or what is left of it followed by spaces. -/
theorem padSpaces_group (data : List Nat) (pos : Nat) (cb : List Nat) (hcb : cb.length = 7) :
    padSpaces (blit cb 0 ((data.drop pos).take 6)) (6 - ((data.drop pos).take 6).length)
      = (data.drop pos ++ List.replicate 6 32).take 6 ++ cb.drop 6 := by
  have hk : ((data.drop pos).take 6).length ≤ 6 := by
    rw [List.length_take]; omega
  rw [padSpaces_blit cb _ hcb hk, take_six_padded]

theorem clientLoop_stop {addr : Nat} (sendto : List Nat → Bool) (s d p fuel rounds : Nat) (st : ClientState)
    (h : st.covert_running = false) :
    clientLoop addr sendto s d p fuel (rounds + 1) st = some st := by
  rw [clientLoop]
  simp [h]

theorem clientLoop_step {addr : Nat} (sendto : List Nat → Bool) (s d p fuel rounds : Nat) (st : ClientState)
    (cf df : FILE) (cb buf : List Nat) (btr : Nat) (run : Bool)
    (hrun : st.covert_running = true)
    (h1 : readCovert fuel st.covert_file st.covert_buffer 6 true = some (cf, cb, btr, run))
    (h2 : fillDummy p fuel st.dummy_file st.buffer p = some (df, buf))
    (h3 : sendto (assemble addr (padSpaces cb btr) buf s d p) = true) :
    clientLoop addr sendto s d p fuel (rounds + 1) st
      = clientLoop addr sendto s d p fuel rounds
          { covert_file := cf, dummy_file := df, covert_buffer := padSpaces cb btr,
            buffer := assemble addr (padSpaces cb btr) buf s d p, covert_running := run,
            sent := st.sent ++ [assemble addr (padSpaces cb btr) buf s d p] } := by
  rw [clientLoop, if_pos hrun, hrun, h1]
  dsimp only
  rw [h2]
  dsimp only
  rw [if_pos h3]

/-- The server's `covert_text` for a frame that ends in a datagram assembled from
six characters of the alphabet: these six characters. -/
theorem serverCovertText_group {addr : Nat} (hdr g tail buf : List Nat) (s d p : Nat)
    (hg : g.length = 6) (hmem : ∀ c ∈ g, c ∈ alphabetChars) (hb : 8 ≤ buf.length) :
    serverCovertText (hdr ++ assemble addr (g ++ tail) buf s d p) hdr.length = some g := by
  match g, hg with
  | [g0, g1, g2, g3, g4, g5], _ =>
    have a0 := alphabetChars_subset g0 (hmem g0 (by simp))
    have a1 := alphabetChars_subset g1 (hmem g1 (by simp))
    have a2 := alphabetChars_subset g2 (hmem g2 (by simp))
    have a3 := alphabetChars_subset g3 (hmem g3 (by simp))
    have a4 := alphabetChars_subset g4 (hmem g4 (by simp))
    have a5 := alphabetChars_subset g5 (hmem g5 (by simp))
    rw [serverCovertText_assemble _ _ _ _ _ _ hb,
      decode_encode addr _ (by simpa using a0) (by simpa using a1) (by simpa using a2),
      decode_encode addr _ (by simpa using a3) (by simpa using a4) (by simpa using a5)]
    rfl

theorem group_mem (data : List Nat) (pos : Nat) (h : ∀ c ∈ data, c ∈ alphabetChars) :
    ∀ c ∈ (data.drop pos ++ List.replicate 6 32).take 6, c ∈ alphabetChars := by
  intro c hc
  rcases List.mem_append.mp (List.mem_of_mem_take hc) with h1 | h1
  · exact h c (List.mem_of_mem_drop h1)
  · rw [List.eq_of_mem_replicate h1]
    decide

theorem group_length (data : List Nat) (pos : Nat) :
    ((data.drop pos ++ List.replicate 6 32).take 6).length = 6 := by
  rw [List.length_take, List.length_append, List.length_replicate]
  omega

/-- The send loop on a covert file of alphabet characters, read from `pos` on: it
ends, having sent one datagram for every six characters left and one more, and
the server's `covert_text` for these datagrams are the characters left, padded
with spaces, cut into groups of six. -/
theorem clientLoop_run {addr : Nat} (sendto : List Nat → Bool) (s d p fuel : Nat)
    (hsend : ∀ x, sendto x = true) (hfuel : 2 * p + 2 ≤ fuel) :
    ∀ (rounds : Nat) (data : List Nat) (pos : Nat) (df : FILE) (cb buf : List Nat)
      (sent : List (List Nat)),
      (∀ c ∈ data, c ∈ alphabetChars) → pos ≤ data.length → df.data ≠ [] →
      df.pos ≤ df.data.length → cb.length = 7 → buf.length = 8 + p →
      (data.length - pos) / 6 + 2 ≤ rounds →
      ∃ (st' : ClientState) (groups ds : List (List Nat)),
        clientLoop addr sendto s d p fuel rounds
            { covert_file := { data := data, pos := pos }, dummy_file := df, covert_buffer := cb,
              buffer := buf, covert_running := true, sent := sent } = some st'
          ∧ st'.sent = sent ++ ds
          ∧ ds.length = (data.length - pos) / 6 + 1
          ∧ (∀ hdr : List Nat,
              ds.map (fun x => serverCovertText (hdr ++ x) hdr.length) = groups.map some)
          ∧ (∀ g ∈ groups, g.length = 6)
          ∧ groups.flatten
              = data.drop pos ++ List.replicate (6 - (data.length - pos) % 6) 32
  | 0, _, _, _, _, _, _, _, _, _, _, _, _, hr => by omega
  | rounds + 1, data, pos, df, cb, buf, sent, hchars, hpos, hd, hdp, hcb, hbuf, hr => by
    have hk : ((data.drop pos).take 6).length = min 6 (data.length - pos) := by
      rw [List.length_take, List.length_drop]
    have h1 := readCovert_group data pos cb fuel (by omega)
    have hone : (if df.pos = df.data.length then 1 else 0) ≤ 1 := by split <;> omega
    obtain ⟨df', h2, hdd, hdp'⟩ := fillDummy_run p fuel df buf p hd hdp hbuf (Nat.le_refl _)
      (by omega)
    have hpad := padSpaces_group data pos cb hcb
    have hbuf' : (blit buf (8 + (p - p)) (cyclicBytes df.data df.pos p)).length = 8 + p := by
      rw [blit_length _ _ _ (by rw [cyclicBytes_length]; omega), hbuf]
    have hD : ∀ hdr : List Nat, serverCovertText
        (hdr ++ assemble addr ((data.drop pos ++ List.replicate 6 32).take 6 ++ cb.drop 6)
          (blit buf (8 + (p - p)) (cyclicBytes df.data df.pos p)) s d p) hdr.length
        = some ((data.drop pos ++ List.replicate 6 32).take 6) := fun hdr =>
      serverCovertText_group hdr _ _ _ s d p (group_length data pos) (group_mem data pos hchars)
        (by omega)
    have hDlen : (assemble addr ((data.drop pos ++ List.replicate 6 32).take 6 ++ cb.drop 6)
        (blit buf (8 + (p - p)) (cyclicBytes df.data df.pos p)) s d p).length = 8 + p := by
      rw [assemble_length _ _ _ _ _ (by omega), hbuf']
    have hcb' : ((data.drop pos ++ List.replicate 6 32).take 6 ++ cb.drop 6).length = 7 := by
      rw [List.length_append, group_length, List.length_drop]; omega
    have hGlen := group_length data pos
    have hGA : 6 ≤ data.length - pos →
        (data.drop pos ++ List.replicate 6 32).take 6
            ++ (data.drop (pos + ((data.drop pos).take 6).length)
              ++ List.replicate (6 - (data.length - (pos + ((data.drop pos).take 6).length)) % 6)
                32)
          = data.drop pos ++ List.replicate (6 - (data.length - pos) % 6) 32 := by
      intro h6
      have hdl : 6 ≤ (data.drop pos).length := by rw [List.length_drop]; exact h6
      have hmod : (data.length - (pos + ((data.drop pos).take 6).length)) % 6
          = (data.length - pos) % 6 := by omega
      have hdrop : data.drop (pos + ((data.drop pos).take 6).length)
          = (data.drop pos).drop 6 := by
        have hk6 : ((data.drop pos).take 6).length = 6 := by omega
        rw [hk6, List.drop_drop, Nat.add_comm]
      rw [hmod, hdrop, List.take_append_of_le_length hdl, ← List.append_assoc,
        List.take_append_drop]
    have hGB : ¬ 6 ≤ data.length - pos →
        (data.drop pos ++ List.replicate 6 32).take 6
          = data.drop pos ++ List.replicate (6 - (data.length - pos) % 6) 32 := by
      intro h6
      have hdl : (data.drop pos).length ≤ 6 := by rw [List.length_drop]; omega
      have hmod : (data.length - pos) % 6 = (data.drop pos).length := by
        rw [List.length_drop]; omega
      rw [take_six_padded, List.take_of_length_le hdl, hmod]
    rw [clientLoop_step sendto s d p fuel rounds _ _ _ _ _ _ _ rfl h1 h2 (hsend _), hpad]
    generalize assemble addr ((data.drop pos ++ List.replicate 6 32).take 6 ++ cb.drop 6)
        (blit buf (8 + (p - p)) (cyclicBytes df.data df.pos p)) s d p = D at hD hDlen ⊢
    generalize (data.drop pos ++ List.replicate 6 32).take 6 ++ cb.drop 6 = cb' at hcb' ⊢
    generalize (data.drop pos ++ List.replicate 6 32).take 6 = G at hD hGlen hGA hGB ⊢
    by_cases h6 : 6 ≤ data.length - pos
    · have e2 : decide (6 ≤ data.length - pos) = true := by rw [decide_eq_true_iff]; exact h6
      rw [e2]
      obtain ⟨st', groups, ds, hrun, hsent, hlen, hmap, hg, hflat⟩ :=
        clientLoop_run sendto s d p fuel hsend hfuel rounds data
          (pos + ((data.drop pos).take 6).length) df' cb' D (sent ++ [D])
          hchars (by omega) (by rw [hdd]; exact hd) hdp' hcb' hDlen (by omega)
      refine ⟨st', G :: groups, D :: ds, hrun, ?_, ?_, ?_, ?_, ?_⟩
      · rw [hsent, List.append_assoc, List.singleton_append]
      · rw [List.length_cons, hlen]; omega
      · intro hdr
        rw [List.map_cons, List.map_cons, hD hdr, hmap hdr]
      · intro g hgm
        rcases List.mem_cons.mp hgm with e | hgm
        · rw [e]; exact hGlen
        · exact hg g hgm
      · rw [List.flatten_cons, hflat, hGA h6]
    · have e2 : decide (6 ≤ data.length - pos) = false := by
        rw [decide_eq_false_iff_not]; exact h6
      obtain ⟨rounds, rfl⟩ : ∃ n, rounds = n + 1 := ⟨rounds - 1, by omega⟩
      rw [e2, clientLoop_stop _ _ _ _ _ _ _ rfl]
      refine ⟨_, [G], [D], rfl, rfl, ?_, ?_, ?_, ?_⟩
      · rw [List.length_singleton]; omega
      · intro hdr
        rw [List.map_singleton, List.map_singleton, hD hdr]
      · intro g hgm
        rw [List.mem_singleton.mp hgm]; exact hGlen
      · rw [List.flatten_singleton, hGB h6]

theorem fillDummy_length (p : Nat) : ∀ (fuel : Nat) (f : FILE) (buf : List Nat) (btr : Nat)
    (f' : FILE) (buf' : List Nat), btr ≤ p → buf.length = 8 + p →
    fillDummy p fuel f buf btr = some (f', buf') → buf'.length = 8 + p
  | 0, _, _, _, _, _, _, _, h => by simp [fillDummy] at h
  | fuel + 1, f, buf, btr, f', buf', hbtr, hb, h => by
    by_cases h0 : 0 < btr
    · rw [fillDummy_step p fuel f buf btr h0] at h
      have hk := fread_length f btr
      exact fillDummy_length p fuel _ _ _ f' buf' (by omega)
        (by rw [blit_length _ _ _ (by omega), hb]) h
    · have e : btr = 0 := by omega
      rw [e, fillDummy_zero] at h
      simp only [Option.some.injEq, Prod.mk.injEq] at h
      rw [← h.2]; exact hb

/-- Every datagram the send loop hands to `sendto` is one that `assemble` left in
a buffer of `8 + packet_size` bytes. -/
theorem clientLoop_sent {addr : Nat} (sendto : List Nat → Bool) (s d p fuel : Nat) :
    ∀ (rounds : Nat) (st st' : ClientState), st.buffer.length = 8 + p →
      clientLoop addr sendto s d p fuel rounds st = some st' →
      ∀ x ∈ st'.sent, x ∈ st.sent
        ∨ ∃ cb buf : List Nat, buf.length = 8 + p ∧ x = assemble addr cb buf s d p
  | 0, _, _, _, h => by simp [clientLoop] at h
  | rounds + 1, st, st', hb, h => by
    intro x hx
    by_cases hrun : st.covert_running = true
    · rw [clientLoop, if_pos hrun] at h
      cases h1 : readCovert fuel st.covert_file st.covert_buffer 6 st.covert_running with
      | none => rw [h1] at h; simp at h
      | some r1 =>
        obtain ⟨cf, cb, btr, run⟩ := r1
        rw [h1] at h
        dsimp only at h
        cases h2 : fillDummy p fuel st.dummy_file st.buffer p with
        | none => rw [h2] at h; simp at h
        | some r2 =>
          obtain ⟨df, buf⟩ := r2
          have hbuf := fillDummy_length p fuel _ _ _ df buf (Nat.le_refl _) hb h2
          have hlen : (assemble addr (padSpaces cb btr) buf s d p).length = 8 + p := by
            rw [assemble_length _ _ _ _ _ (by omega), hbuf]
          rw [h2] at h
          dsimp only at h
          generalize hD : assemble addr (padSpaces cb btr) buf s d p = D at h hlen
          by_cases h3 : sendto D = true
          · rw [if_pos h3] at h
            rcases clientLoop_sent sendto s d p fuel rounds
              { covert_file := cf, dummy_file := df, covert_buffer := padSpaces cb btr,
                buffer := D, covert_running := run, sent := st.sent ++ [D] } st' hlen h x hx
              with hm | hm
            · rcases List.mem_append.mp hm with hm | hm
              · exact Or.inl hm
              · exact Or.inr ⟨_, buf, hbuf, (List.mem_singleton.mp hm).trans hD.symm⟩
            · exact Or.inr hm
          · rw [if_neg h3] at h
            have e : st'.sent = st.sent := by
              rw [← Option.some.inj h]
            rw [e] at hx
            exact Or.inl hx
    · rw [clientLoop, if_neg hrun] at h
      rw [← Option.some.inj h] at hx
      exact Or.inl hx

theorem client_sent {addr : Nat} (sendto : List Nat → Bool) (covert dummy : List Nat) (s d p fuel : Nat)
    (ds : List (List Nat)) (h : client addr sendto covert dummy s d p fuel = some ds) :
    ∀ x ∈ ds, ∃ cb buf : List Nat, buf.length = 8 + p ∧ x = assemble addr cb buf s d p := by
  intro x hx
  unfold client at h
  rw [Option.map_eq_some'] at h
  obtain ⟨st', h, rfl⟩ := h
  rcases clientLoop_sent sendto s d p fuel fuel _ st' (List.length_replicate _ _) h x hx with hm | hm
  · simp at hm
  · exact hm

/-! ## The end-to-end claim -/

/-- The end-to-end grouping where the code reaches it: for every covert input of
`n` alphabet characters, the client's send loop (its sends succeeding, its cover
source not empty, and given enough fuel) ends after sending exactly `n / 6 + 1`
datagrams, and the server's decoding of the port pair of each datagram (behind
any IP header) yields, in order, groups of six characters that together are the
input followed by `6 - n % 6` spaces, at whatever address the array lies. -/
theorem client_server_groups (addr : Nat) (sendto : List Nat → Bool) (covert dummy : List Nat)
    (source_addr dest_addr packet_size fuel : Nat) (hsend : ∀ x, sendto x = true)
    (hc : ∀ c ∈ covert, c ∈ alphabetChars) (hd : dummy ≠ [])
    (hf : covert.length / 6 + 2 * packet_size + 2 ≤ fuel) :
    ∃ ds groups : List (List Nat),
      client addr sendto covert dummy source_addr dest_addr packet_size fuel = some ds
        ∧ ds.length = covert.length / 6 + 1
        ∧ (∀ hdr : List Nat,
            ds.map (fun x => serverCovertText (hdr ++ x) hdr.length) = groups.map some)
        ∧ (∀ g ∈ groups, g.length = 6)
        ∧ groups.flatten = covert ++ List.replicate (6 - covert.length % 6) 32 := by
  obtain ⟨st', groups, ds, hrun, hsent, hlen, hmap, hg, hflat⟩ :=
    clientLoop_run sendto source_addr dest_addr packet_size fuel hsend (by omega) fuel covert 0
      { data := dummy, pos := 0 } (List.replicate 7 0) (List.replicate (8 + packet_size) 0) []
      hc (Nat.zero_le _) hd (Nat.zero_le _) (List.length_replicate _ _)
      (List.length_replicate _ _) (by omega)
  refine ⟨ds, groups, ?_, hlen, hmap, hg, hflat⟩
  unfold client
  rw [hrun, Option.map_some', hsent, List.nil_append]

/-- The end-to-end grouping at the input "hello world" (two datagrams, decoded as
"hello " and "world ") and at the empty input (one datagram, decoded as six
spaces), with the cover source "xyz". -/
theorem client_server_groups_witness :
    (∀ x, (fun _ : List Nat => true) x = true)
      ∧ (∀ c ∈ [104, 101, 108, 108, 111, 32, 119, 111, 114, 108, 100], c ∈ alphabetChars)
      ∧ ([120, 121, 122] : List Nat) ≠ []
      ∧ (∃ ds groups : List (List Nat),
          client 0x4006e0 (fun _ => true) [104, 101, 108, 108, 111, 32, 119, 111, 114, 108, 100]
              [120, 121, 122] 1 2 4 11 = some ds
            ∧ ds.length = ([104, 101, 108, 108, 111, 32, 119, 111, 114, 108, 100] : List Nat).length
                / 6 + 1
            ∧ (∀ hdr : List Nat,
                ds.map (fun x => serverCovertText (hdr ++ x) hdr.length) = groups.map some)
            ∧ (∀ g ∈ groups, g.length = 6)
            ∧ groups.flatten = [104, 101, 108, 108, 111, 32, 119, 111, 114, 108, 100]
                ++ List.replicate
                  (6 - ([104, 101, 108, 108, 111, 32, 119, 111, 114, 108, 100] : List Nat).length
                    % 6) 32)
      ∧ (client 0x4006e0 (fun _ => true) [104, 101, 108, 108, 111, 32, 119, 111, 114, 108, 100]
            [120, 121, 122] 1 2 4 11).map (fun ds => ds.map (fun x => serverCovertText x 0))
          = some [some [104, 101, 108, 108, 111, 32], some [119, 111, 114, 108, 100, 32]]
      ∧ (client 0x4006e0 (fun _ => true) [] [120, 121, 122] 1 2 4 10).map
            (fun ds => ds.map (fun x => serverCovertText x 0))
          = some [some [32, 32, 32, 32, 32, 32]] :=
  ⟨fun _ => rfl, by decide, by decide,
    client_server_groups 0x4006e0 (fun _ => true) [104, 101, 108, 108, 111, 32, 119, 111, 114, 108, 100]
      [120, 121, 122] 1 2 4 11 (fun _ => rfl) (by decide) (by decide) (by decide),
    by decide, by decide⟩

/-- C2 fails in the code on the covert input "hello world", and on the empty
covert input, when the cover file is empty (default `packet_size = 100`): the loop
that reads the dummy data never ends, so after any number of rounds the client
has sent no datagram and has not returned, where two datagrams (one for the empty
input) are to be sent before it terminates. -/
theorem client_empty_cover_never_sends (fuel : Nat) :
    client 0x4006e0 (fun _ => true) [104, 101, 108, 108, 111, 32, 119, 111, 114, 108, 100] []
        1 2 100 fuel = none
      ∧ client 0x4006e0 (fun _ => true) [] [] 1 2 100 fuel = none := by
  constructor
  · unfold client
    rw [clientLoop_empty_dummy (fun _ => true) 1 2 100 fuel (by decide) fuel _ rfl rfl]
    rfl
  · unfold client
    rw [clientLoop_empty_dummy (fun _ => true) 1 2 100 fuel (by decide) fuel _ rfl rfl]
    rfl

/-! ## The claims on the header fields of every datagram -/

/-- C7, amended: in every datagram the client assembles in its buffer of
`8 + packet_size` bytes, and so in every datagram it sends, the value stored in
the UDP checksum field equals `udp_checksum` computed over the 12 bytes of the
pseudo-header alone (source address, destination address, zero byte, protocol
17, UDP length in network order). -/
theorem checksum_field_pseudo_header (addr : Nat) (source_addr dest_addr packet_size : Nat) :
    pseudoHeader source_addr dest_addr packet_size
        = bytes32 source_addr ++ bytes32 dest_addr
            ++ [0, 17, (8 + packet_size) / 256 % 256, (8 + packet_size) % 256]
      ∧ (∀ covert_buffer buffer : List Nat, buffer.length = 8 + packet_size →
          load16 (assemble addr covert_buffer buffer source_addr dest_addr packet_size) 6
            = udp_checksum (pseudoHeader source_addr dest_addr packet_size) 12)
      ∧ (∀ (sendto : List Nat → Bool) (covert dummy : List Nat) (fuel : Nat)
            (ds : List (List Nat)),
          client addr sendto covert dummy source_addr dest_addr packet_size fuel = some ds →
          ∀ x ∈ ds,
            load16 x 6 = udp_checksum (pseudoHeader source_addr dest_addr packet_size) 12) := by
  refine ⟨?_, fun cb buffer hb => load16_check_assemble _ _ _ _ _ (by omega), ?_⟩
  · simp only [pseudoHeader, store16_zero, htons_lo, htons_hi, List.append_assoc,
      List.cons_append, List.nil_append]
  · intro sendto covert dummy fuel ds h x hx
    obtain ⟨cb, buf, hb, e⟩ :=
      client_sent sendto covert dummy source_addr dest_addr packet_size fuel ds h x hx
    rw [e]
    exact load16_check_assemble _ _ _ _ _ (by omega)

/-- C7, amended, at the one datagram sent for an empty covert file with a payload
of one byte. -/
theorem checksum_field_pseudo_header_witness :
    client 0x4006e0 (fun _ => true) [] [1] 0 0 1 4 = some [[90, 235, 90, 235, 0, 9, 255, 229, 1]]
      ∧ load16 [90, 235, 90, 235, 0, 9, 255, 229, 1] 6 = udp_checksum (pseudoHeader 0 0 1) 12 :=
  ⟨by decide,
    (checksum_field_pseudo_header 0x4006e0 0 0 1).2.2 (fun _ => true) [] [1] 4 _ (by decide) _
      (List.mem_singleton.mpr rfl)⟩

/-- C8, amended: for every packet size from 0 to 65527, the UDP length field of
each datagram the client assembles in its buffer of `8 + packet_size` bytes, and
so of each datagram it sends, converted back from network to host order, equals
the UDP header size 8 plus the cover payload size, and the server's payload
length for a frame ending in that datagram (UDP length minus UDP header size)
equals the client's packet size. -/
theorem udp_length_field (addr : Nat) (source_addr dest_addr packet_size : Nat)
    (hp : packet_size ≤ 65527) :
    (∀ hdr covert_buffer buffer : List Nat, buffer.length = 8 + packet_size →
        ntohs (load16 (assemble addr covert_buffer buffer source_addr dest_addr packet_size) 4)
            = 8 + packet_size
          ∧ serverPayloadLength
              (hdr ++ assemble addr covert_buffer buffer source_addr dest_addr packet_size) hdr.length
              = packet_size)
      ∧ (∀ (sendto : List Nat → Bool) (covert dummy : List Nat) (fuel : Nat)
            (ds : List (List Nat)),
          client addr sendto covert dummy source_addr dest_addr packet_size fuel = some ds →
          ∀ x ∈ ds, ∀ hdr : List Nat,
            ntohs (load16 x 4) = 8 + packet_size
              ∧ serverPayloadLength (hdr ++ x) hdr.length = packet_size) := by
  have hm : (8 + packet_size) % 65536 = 8 + packet_size := Nat.mod_eq_of_lt (by omega)
  have key : ∀ hdr covert_buffer buffer : List Nat, buffer.length = 8 + packet_size →
      ntohs (load16 (assemble addr covert_buffer buffer source_addr dest_addr packet_size) 4)
          = 8 + packet_size
        ∧ serverPayloadLength
            (hdr ++ assemble addr covert_buffer buffer source_addr dest_addr packet_size) hdr.length
            = packet_size := by
    intro hdr cb buffer hb
    have hl : 8 ≤ buffer.length := by omega
    rw [load16_len_assemble _ _ _ _ _ hl, serverPayloadLength_assemble _ _ _ _ _ _ hl, hm]
    exact ⟨rfl, by omega⟩
  refine ⟨key, ?_⟩
  intro sendto covert dummy fuel ds h x hx hdr
  obtain ⟨cb, buf, hb, e⟩ :=
    client_sent sendto covert dummy source_addr dest_addr packet_size fuel ds h x hx
  rw [e]
  exact key hdr cb buf hb

/-- C8, amended, at `packet_size = 1`: the one datagram sent for an empty covert
file, behind an IP header of 20 bytes. -/
theorem udp_length_field_witness :
    1 ≤ 65527
      ∧ client 0x4006e0 (fun _ => true) [] [1] 0 0 1 4 = some [[90, 235, 90, 235, 0, 9, 255, 229, 1]]
      ∧ ntohs (load16 [90, 235, 90, 235, 0, 9, 255, 229, 1] 4) = 8 + 1
      ∧ serverPayloadLength (List.replicate 20 0 ++ [90, 235, 90, 235, 0, 9, 255, 229, 1])
          (List.replicate 20 0).length = (1 : Nat) :=
  ⟨by decide, by decide,
    (udp_length_field 0x4006e0 0 0 1 (by decide)).2 (fun _ => true) [] [1] 4 _ (by decide) _
      (List.mem_singleton.mpr rfl) (List.replicate 20 0)⟩

/-! ## The reverse round trip -/

theorem alphabetIndex_getD : ∀ i, i < 32 → alphabetIndex (alphabet.getD i 0) = i := by
  decide

theorem alphabet_getD_mem : ∀ i, i < 32 → alphabet.getD i 0 ∈ alphabet := by
  decide

set_option maxRecDepth 100000 in
theorem or_marker : ∀ b, b < 256 → b ||| 0x80 = 128 + b % 128 := by
  decide!

theorem alphabet_nodup : alphabet.Nodup := by
  decide

/-- The two bytes `encode` leaves for the entries of the array at three indices
below 32. -/
theorem encode_entries {addr : Nat} (i0 i1 i2 : Nat) (h0 : i0 < 32) (h1 : i1 < 32) (h2 : i2 < 32) :
    encode addr [alphabet.getD i0 0, alphabet.getD i1 0, alphabet.getD i2 0]
      = [128 + 4 * i0 + i1 / 8, i1 % 8 * 32 + i2] := by
  rw [encode_bytes]
  simp only [List.getD_cons_zero, List.getD_cons_succ,
    encodeIndex_found addr _ (alphabet_getD_mem i0 h0),
    encodeIndex_found addr _ (alphabet_getD_mem i1 h1),
    encodeIndex_found addr _ (alphabet_getD_mem i2 h2),
    alphabetIndex_getD i0 h0, alphabetIndex_getD i1 h1, alphabetIndex_getD i2 h2,
    Nat.mod_eq_of_lt h0, Nat.mod_eq_of_lt h1, Nat.mod_eq_of_lt h2]

/-- Encoding what `decode` writes for two bytes gives the two bytes back, with
the top bit of the first one set. -/
theorem encode_decode {addr : Nat} (b0 b1 : Nat) (h0 : b0 < 256) (h1 : b1 < 256) :
    decode [b0, b1]
        = some [alphabet.getD (b0 / 4 % 32) 0, alphabet.getD (b0 % 4 * 8 + b1 / 32 % 8) 0,
            alphabet.getD (b1 % 32) 0]
      ∧ encode addr [alphabet.getD (b0 / 4 % 32) 0, alphabet.getD (b0 % 4 * 8 + b1 / 32 % 8) 0,
            alphabet.getD (b1 % 32) 0] = [b0 ||| 0x80, b1] := by
  have k0 : b0 / 4 % 32 < 32 := Nat.mod_lt _ (by decide)
  have k1 : b0 % 4 * 8 + b1 / 32 % 8 < 32 := by omega
  have k2 : b1 % 32 < 32 := Nat.mod_lt _ (by decide)
  refine ⟨?_, ?_⟩
  · rw [decode_bytes]
    rfl
  · rw [encode_entries _ _ _ k0 k1 k2, or_marker b0 h0]
    have e0 : 128 + 4 * (b0 / 4 % 32) + (b0 % 4 * 8 + b1 / 32 % 8) / 8 = 128 + b0 % 128 := by
      omega
    have e1 : (b0 % 4 * 8 + b1 / 32 % 8) % 8 * 32 + b1 % 32 = b1 := by
      omega
    rw [e0, e1]

theorem decode_marker (b0 b1 : Nat) (h0 : b0 < 256) :
    decode [b0 ||| 0x80, b1] = decode [b0, b1] := by
  rw [decode_bytes, decode_bytes, or_marker b0 h0]
  simp only [List.getD_cons_zero, List.getD_cons_succ]
  have e0 : (128 + b0 % 128) / 4 % 32 = b0 / 4 % 32 := by omega
  have e1 : (128 + b0 % 128) % 4 = b0 % 4 := by omega
  rw [e0, e1]

theorem or_marker_set : ∀ b, b < 256 → 128 ≤ b → b ||| 0x80 = b := by
  intro b h hm
  rw [or_marker b h]
  omega

/-- C11: for every 2-byte field `b`, `encode (decode b)` equals `b` with the most
significant bit of its first byte set to 1; `decode` gives the same for `b` and
for `b` with that bit set; on the fields whose marker bit is set `encode` undoes
`decode`, and on the triples of entries of the 32-entry alphabet array (whose
entries are distinct, entry 31 being the terminating NUL) `decode` undoes
`encode`, whose result has its marker bit set; all this at whatever address the
array lies. -/
theorem encode_decode_marker (addr : Nat) (b0 b1 : Nat) (h0 : b0 < 256) (h1 : b1 < 256) :
    (∃ t : List Nat, decode [b0, b1] = some t ∧ t.length = 3 ∧ (∀ c ∈ t, c ∈ alphabet)
        ∧ encode addr t = [b0 ||| 0x80, b1])
      ∧ decode [b0 ||| 0x80, b1] = decode [b0, b1]
      ∧ (128 ≤ b0 → ∃ t : List Nat, decode [b0, b1] = some t ∧ encode addr t = [b0, b1])
      ∧ (∀ c0 ∈ alphabet, ∀ c1 ∈ alphabet, ∀ c2 ∈ alphabet,
          decode (encode addr [c0, c1, c2]) = some [c0, c1, c2]
            ∧ ∃ x0 x1, encode addr [c0, c1, c2] = [x0, x1] ∧ 128 ≤ x0 ∧ x0 < 256 ∧ x1 < 256)
      ∧ alphabet.length = 32 ∧ alphabet.Nodup ∧ alphabet.getD 31 0 = 0 := by
  have k0 : b0 / 4 % 32 < 32 := Nat.mod_lt _ (by decide)
  have k1 : b0 % 4 * 8 + b1 / 32 % 8 < 32 := by omega
  have k2 : b1 % 32 < 32 := Nat.mod_lt _ (by decide)
  obtain ⟨hd, he⟩ := encode_decode b0 b1 h0 h1
  refine ⟨⟨_, hd, rfl, ?_, he⟩, decode_marker b0 b1 h0, ?_, ?_, rfl, alphabet_nodup, rfl⟩
  · intro c hc
    simp only [List.mem_cons, List.mem_singleton, List.not_mem_nil, or_false] at hc
    rcases hc with e | e | e
    · rw [e]; exact alphabet_getD_mem _ k0
    · rw [e]; exact alphabet_getD_mem _ k1
    · rw [e]; exact alphabet_getD_mem _ k2
  · intro hm
    refine ⟨_, hd, ?_⟩
    rw [he, or_marker_set b0 h0 hm]
  · intro c0 m0 c1 m1 c2 m2
    refine ⟨?_, ?_⟩
    · exact decode_encode addr [c0, c1, c2] m0 m1 m2
    · have l0 : encodeIndex addr c0 % 32 < 32 := Nat.mod_lt _ (by decide)
      have l1 : encodeIndex addr c1 % 32 < 32 := Nat.mod_lt _ (by decide)
      have l2 : encodeIndex addr c2 % 32 < 32 := Nat.mod_lt _ (by decide)
      refine ⟨_, _, encode_bytes addr [c0, c1, c2], ?_, ?_, ?_⟩
      · exact Nat.le_trans (Nat.le_add_right _ _) (Nat.le_add_right _ _)
      · simp only [List.getD_cons_zero, List.getD_cons_succ]
        generalize encodeIndex addr c0 % 32 = n0 at l0 ⊢
        generalize encodeIndex addr c1 % 32 = n1 at l1 ⊢
        omega
      · simp only [List.getD_cons_zero, List.getD_cons_succ]
        generalize encodeIndex addr c1 % 32 = n1 at l1 ⊢
        generalize encodeIndex addr c2 % 32 = n2 at l2 ⊢
        omega

/-- C11 at the field `{0x1c, 0x8b}`, the code of "hel" with its marker bit
cleared: `decode` gives "hel" and `encode` of it gives `{0x9c, 0x8b}`, the array
lying at address `0x5593e552f3e0`. -/
theorem encode_decode_marker_witness :
    28 < 256 ∧ 139 < 256
      ∧ (∃ t : List Nat, decode [28, 139] = some t ∧ t.length = 3 ∧ (∀ c ∈ t, c ∈ alphabet)
          ∧ encode 0x5593e552f3e0 t = [28 ||| 0x80, 139])
      ∧ decode [28, 139] = some [104, 101, 108]
      ∧ encode 0x5593e552f3e0 [104, 101, 108] = [156, 139]
      ∧ decode [255, 255] = some [0, 0, 0]
      ∧ encode 0x5593e552f3e0 [0, 0, 0] = [255, 255] :=
  ⟨by decide, by decide, (encode_decode_marker 0x5593e552f3e0 28 139 (by decide) (by decide)).1,
    by decide, by decide, by decide, by decide⟩

end CovertChannel
